import Mathlib

/-!
Verification development for the safe text-mutation core of the AI-CLI-TOOLS
repository: the encoding codec (`aiencoding.py`), the line-range edit engine
(`aiedit.py`) and the backup store (`aibackup.py`).

The embedding is shallow:
* a file's byte content is a `List Nat` (each element a byte value `< 256`);
* a decoded text is a `List Nat` of Unicode code points;
* a document's line sequence is a `List (List Nat)` as produced by Python's
  `str.splitlines(keepends=True)`;
* the process-wide configuration values consumed by the core are a `Config`;
* each CLI command is a pure function from its inputs (current file state,
  arguments, oracles for the few external failure sources) to a result record
  describing the exit status and the performed side effects.

The platform is modelled as little-endian (the native byte order used by
Python's `utf-16` / `utf-32` codecs when writing), matching the x86-64/ARM
machines the tool targets.
-/

namespace AICLITools

/-! ## Python string / line primitives -/

/-- The code points Python's `str.splitlines` treats as line boundaries:
LF, VT, FF, CR, FS, GS, RS, NEL, LINE SEPARATOR, PARAGRAPH SEPARATOR. -/
def isBreakChar (c : Nat) : Bool :=
  c = 10 || c = 11 || c = 12 || c = 13 || c = 28 || c = 29 || c = 30 ||
  c = 133 || c = 8232 || c = 8233

/-- Python `str.splitlines(keepends=True)`: split on every line boundary,
keeping the terminator attached to its line; `\r\n` counts as one boundary. -/
def splitlinesKeepends : List Nat → List (List Nat)
  | [] => []
  | 13 :: 10 :: rest2 => [13, 10] :: splitlinesKeepends rest2
  | c :: rest =>
    if isBreakChar c then [c] :: splitlinesKeepends rest
    else
      match splitlinesKeepends rest with
      | [] => [[c]]
      | l :: ls => (c :: l) :: ls

/-- Concatenation of a line sequence back into one text (what `writelines`
performs on the in-memory line list). -/
def joinLines (ls : List (List Nat)) : List Nat := ls.flatten

/-- The universal-newline translation Python applies when a file is opened in
text mode with `newline=None` (as `read_with_encoding` does on the
byte-order-marker branch): `\r\n` and lone `\r` both become `\n`. -/
def univNewlines : List Nat → List Nat
  | [] => []
  | 13 :: 10 :: r => 10 :: univNewlines r
  | 13 :: r => 10 :: univNewlines r
  | c :: r => c :: univNewlines r

/-- Python `str.split("\n")` (always at least one segment). -/
def splitOnNL : List Nat → List (List Nat)
  | [] => [[]]
  | c :: r =>
    if c = 10 then [] :: splitOnNL r
    else
      match splitOnNL r with
      | [] => [[c]]
      | s :: ss => (c :: s) :: ss

/-- `content_str.replace("\\n", "\n")`: expand the two-character escape
sequence backslash-`n` (code points 92, 110) to a real newline, scanning left
to right without overlap. -/
def expandEscapes : List Nat → List Nat
  | [] => []
  | 92 :: 110 :: r => 10 :: expandEscapes r
  | c :: r => c :: expandEscapes r

/-! ## Encoding codec (`aiencoding.py`) -/

/-- The encoding tags produced by `detect_encoding` / the fallback loop: the
Python encoding names `"utf-32"`, `"utf-16"`, `"utf-8-sig"`, `"utf-8"`,
`"cp1252"`, `"latin-1"`. -/
inductive EncTag where
  | utf32 | utf16 | utf8sig | utf8 | cp1252 | latin1
deriving DecidableEq, Repr

/-- One step of CPython's strict `utf-8` decoder: given the lead byte and
the bytes after it, the decoded code point and the number of continuation
bytes consumed; `none` on any malformed sequence (overlong forms, surrogates,
values beyond U+10FFFF, truncated or invalid continuations). -/
def utf8DecodeOne (b0 : Nat) (rest : List Nat) : Option (Nat × Nat) :=
  if b0 ≤ 127 then some (b0, 0)
  else if 194 ≤ b0 ∧ b0 ≤ 223 then
    match rest with
    | b1 :: _ =>
      if 128 ≤ b1 ∧ b1 ≤ 191 then some ((b0 - 192) * 64 + (b1 - 128), 1) else none
    | [] => none
  else if b0 = 224 then
    match rest with
    | b1 :: b2 :: _ =>
      if (160 ≤ b1 ∧ b1 ≤ 191) ∧ (128 ≤ b2 ∧ b2 ≤ 191) then
        some ((b1 - 128) * 64 + (b2 - 128), 2)
      else none
    | _ => none
  else if (225 ≤ b0 ∧ b0 ≤ 236) ∨ b0 = 238 ∨ b0 = 239 then
    match rest with
    | b1 :: b2 :: _ =>
      if (128 ≤ b1 ∧ b1 ≤ 191) ∧ (128 ≤ b2 ∧ b2 ≤ 191) then
        some ((b0 - 224) * 4096 + (b1 - 128) * 64 + (b2 - 128), 2)
      else none
    | _ => none
  else if b0 = 237 then
    match rest with
    | b1 :: b2 :: _ =>
      if (128 ≤ b1 ∧ b1 ≤ 159) ∧ (128 ≤ b2 ∧ b2 ≤ 191) then
        some (13 * 4096 + (b1 - 128) * 64 + (b2 - 128), 2)
      else none
    | _ => none
  else if b0 = 240 then
    match rest with
    | b1 :: b2 :: b3 :: _ =>
      if (144 ≤ b1 ∧ b1 ≤ 191) ∧ (128 ≤ b2 ∧ b2 ≤ 191) ∧ (128 ≤ b3 ∧ b3 ≤ 191) then
        some ((b1 - 128) * 4096 + (b2 - 128) * 64 + (b3 - 128), 3)
      else none
    | _ => none
  else if 241 ≤ b0 ∧ b0 ≤ 243 then
    match rest with
    | b1 :: b2 :: b3 :: _ =>
      if (128 ≤ b1 ∧ b1 ≤ 191) ∧ (128 ≤ b2 ∧ b2 ≤ 191) ∧ (128 ≤ b3 ∧ b3 ≤ 191) then
        some ((b0 - 240) * 262144 + (b1 - 128) * 4096 + (b2 - 128) * 64 + (b3 - 128), 3)
      else none
    | _ => none
  else if b0 = 244 then
    match rest with
    | b1 :: b2 :: b3 :: _ =>
      if (128 ≤ b1 ∧ b1 ≤ 143) ∧ (128 ≤ b2 ∧ b2 ≤ 191) ∧ (128 ≤ b3 ∧ b3 ≤ 191) then
        some (1048576 + (b1 - 128) * 4096 + (b2 - 128) * 64 + (b3 - 128), 3)
      else none
    | _ => none
  else none

/-- Strict UTF-8 decoding of a byte list to code points (CPython's `utf-8`
codec in strict mode). -/
def utf8Decode : List Nat → Option (List Nat)
  | [] => some []
  | b0 :: rest =>
    match utf8DecodeOne b0 rest with
    | none => none
    | some (c, k) => (utf8Decode (rest.drop k)).map (c :: ·)
termination_by l => l.length
decreasing_by simp [List.length_drop]; omega

/-- UTF-8 encoding of one code point (CPython's `utf-8` codec in strict mode;
surrogates and values beyond U+10FFFF are unencodable). -/
def utf8EncodeChar (c : Nat) : Option (List Nat) :=
  if c ≤ 127 then some [c]
  else if c ≤ 2047 then some [192 + c / 64, 128 + c % 64]
  else if c ≤ 65535 then
    if 55296 ≤ c ∧ c ≤ 57343 then none
    else some [224 + c / 4096, 128 + (c / 64) % 64, 128 + c % 64]
  else if c ≤ 1114111 then
    some [240 + c / 262144, 128 + (c / 4096) % 64, 128 + (c / 64) % 64, 128 + c % 64]
  else none

/-- Encode a text with a per-character encoder, failing if any character is
unencodable (Python raises `UnicodeEncodeError`). -/
def encodeAllFlat (f : Nat → Option (List Nat)) : List Nat → Option (List Nat)
  | [] => some []
  | c :: r =>
    match f c with
    | none => none
    | some bs => (encodeAllFlat f r).map (bs ++ ·)

/-- Full-text strict UTF-8 encoding. -/
def utf8Encode (s : List Nat) : Option (List Nat) := encodeAllFlat utf8EncodeChar s

/-- Group a byte list into 16-bit little-endian units (fails on odd length,
as CPython's strict `utf-16` decoder does). -/
def utf16LEUnits : List Nat → Option (List Nat)
  | [] => some []
  | [_] => none
  | lo :: hi :: r => (utf16LEUnits r).map ((lo + 256 * hi) :: ·)

/-- Group a byte list into 16-bit big-endian units. -/
def utf16BEUnits : List Nat → Option (List Nat)
  | [] => some []
  | [_] => none
  | hi :: lo :: r => (utf16BEUnits r).map ((lo + 256 * hi) :: ·)

/-- Combine 16-bit units into code points, pairing surrogates; strict mode
rejects unpaired surrogates. -/
def utf16Combine : List Nat → Option (List Nat)
  | [] => some []
  | u :: r =>
    if u < 55296 ∨ 57343 < u then (utf16Combine r).map (u :: ·)
    else if u ≤ 56319 then
      match r with
      | u2 :: r2 =>
        if 56320 ≤ u2 ∧ u2 ≤ 57343 then
          (utf16Combine r2).map ((65536 + (u - 55296) * 1024 + (u2 - 56320)) :: ·)
        else none
      | [] => none
    else none

/-- Strict UTF-16-LE decoding (unit grouping then surrogate pairing). -/
def utf16LEDecode (l : List Nat) : Option (List Nat) := (utf16LEUnits l).bind utf16Combine

/-- Strict UTF-16-BE decoding. -/
def utf16BEDecode (l : List Nat) : Option (List Nat) := (utf16BEUnits l).bind utf16Combine

/-- UTF-16-LE encoding of one code point (surrogates are unencodable). -/
def utf16LEEncodeChar (c : Nat) : Option (List Nat) :=
  if c < 55296 then some [c % 256, c / 256]
  else if c ≤ 57343 then none
  else if c ≤ 65535 then some [c % 256, c / 256]
  else if c ≤ 1114111 then
    some [(55296 + (c - 65536) / 1024) % 256, (55296 + (c - 65536) / 1024) / 256,
          (56320 + (c - 65536) % 1024) % 256, (56320 + (c - 65536) % 1024) / 256]
  else none

/-- Full-text UTF-16-LE encoding. -/
def utf16LEEncode (s : List Nat) : Option (List Nat) := encodeAllFlat utf16LEEncodeChar s

/-- Strict UTF-32-LE decoding (4-byte little-endian units; values beyond
U+10FFFF and surrogate code points are rejected). -/
def utf32LEDecode : List Nat → Option (List Nat)
  | [] => some []
  | b0 :: b1 :: b2 :: b3 :: r =>
    if b0 + 256 * b1 + 65536 * b2 + 16777216 * b3 ≤ 1114111 ∧
       ¬ (55296 ≤ b0 + 256 * b1 + 65536 * b2 + 16777216 * b3 ∧
          b0 + 256 * b1 + 65536 * b2 + 16777216 * b3 ≤ 57343) then
      (utf32LEDecode r).map ((b0 + 256 * b1 + 65536 * b2 + 16777216 * b3) :: ·)
    else none
  | _ => none

/-- Strict UTF-32-BE decoding. -/
def utf32BEDecode : List Nat → Option (List Nat)
  | [] => some []
  | b3 :: b2 :: b1 :: b0 :: r =>
    if b0 + 256 * b1 + 65536 * b2 + 16777216 * b3 ≤ 1114111 ∧
       ¬ (55296 ≤ b0 + 256 * b1 + 65536 * b2 + 16777216 * b3 ∧
          b0 + 256 * b1 + 65536 * b2 + 16777216 * b3 ≤ 57343) then
      (utf32BEDecode r).map ((b0 + 256 * b1 + 65536 * b2 + 16777216 * b3) :: ·)
    else none
  | _ => none

/-- UTF-32-LE encoding of one code point. -/
def utf32LEEncodeChar (c : Nat) : Option (List Nat) :=
  if c ≤ 1114111 ∧ ¬ (55296 ≤ c ∧ c ≤ 57343) then
    some [c % 256, c / 256 % 256, c / 65536 % 256, c / 16777216]
  else none

/-- Full-text UTF-32-LE encoding. -/
def utf32LEEncode (s : List Nat) : Option (List Nat) := encodeAllFlat utf32LEEncodeChar s

/-- The cp1252 decoding of one byte: ASCII and 0xA0–0xFF map to themselves,
0x80–0x9F map through the Windows-1252 table, and the five unassigned bytes
(0x81, 0x8D, 0x8F, 0x90, 0x9D) are undecodable in strict mode. -/
def cp1252DecodeByte (b : Nat) : Option Nat :=
  if b ≤ 127 then some b
  else if 160 ≤ b ∧ b ≤ 255 then some b
  else
    match b with
    | 128 => some 8364
    | 130 => some 8218
    | 131 => some 402
    | 132 => some 8222
    | 133 => some 8230
    | 134 => some 8224
    | 135 => some 8225
    | 136 => some 710
    | 137 => some 8240
    | 138 => some 352
    | 139 => some 8249
    | 140 => some 338
    | 142 => some 381
    | 145 => some 8216
    | 146 => some 8217
    | 147 => some 8220
    | 148 => some 8221
    | 149 => some 8226
    | 150 => some 8211
    | 151 => some 8212
    | 152 => some 732
    | 153 => some 8482
    | 154 => some 353
    | 155 => some 8250
    | 156 => some 339
    | 158 => some 382
    | 159 => some 376
    | _ => none

/-- The cp1252 encoding of one code point (the inverse table). -/
def cp1252EncodeByte (c : Nat) : Option Nat :=
  if c ≤ 127 then some c
  else if 160 ≤ c ∧ c ≤ 255 then some c
  else
    match c with
    | 8364 => some 128
    | 8218 => some 130
    | 402 => some 131
    | 8222 => some 132
    | 8230 => some 133
    | 8224 => some 134
    | 8225 => some 135
    | 710 => some 136
    | 8240 => some 137
    | 352 => some 138
    | 8249 => some 139
    | 338 => some 140
    | 381 => some 142
    | 8216 => some 145
    | 8217 => some 146
    | 8220 => some 147
    | 8221 => some 148
    | 8226 => some 149
    | 8211 => some 150
    | 8212 => some 151
    | 732 => some 152
    | 8482 => some 153
    | 353 => some 154
    | 8250 => some 155
    | 339 => some 156
    | 382 => some 158
    | 376 => some 159
    | _ => none

/-- The latin-1 decoding of one byte (every byte value is a code point). -/
def latin1DecodeByte (b : Nat) : Option Nat := if b ≤ 255 then some b else none

/-- The latin-1 encoding of one code point (only U+0000–U+00FF). -/
def latin1EncodeByte (c : Nat) : Option Nat := if c ≤ 255 then some c else none

/-- Map a byte-to-char (or char-to-byte) table over a whole list, failing if
any element is outside the table. -/
def mapAllBytes (f : Nat → Option Nat) : List Nat → Option (List Nat)
  | [] => some []
  | b :: r =>
    match f b with
    | none => none
    | some c => (mapAllBytes f r).map (c :: ·)

/-- Full-text cp1252 decoding. -/
def cp1252Decode (l : List Nat) : Option (List Nat) := mapAllBytes cp1252DecodeByte l

/-- Full-text cp1252 encoding. -/
def cp1252Encode (s : List Nat) : Option (List Nat) := mapAllBytes cp1252EncodeByte s

/-- Full-text latin-1 decoding. -/
def latin1Decode (l : List Nat) : Option (List Nat) := mapAllBytes latin1DecodeByte l

/-- Full-text latin-1 encoding. -/
def latin1Encode (s : List Nat) : Option (List Nat) := mapAllBytes latin1EncodeByte s

/-- `raw.decode("latin-1", errors="replace")` — total; any element that is
not a byte becomes U+FFFD (unreachable for genuine file bytes). -/
def latin1ReplaceDecode (l : List Nat) : List Nat :=
  l.map (fun b => if b ≤ 255 then b else 65533)

/-- `detect_encoding`: inspect the first bytes for a byte-order marker, in
the order UTF-32-LE, UTF-32-BE, UTF-16-LE, UTF-16-BE, UTF-8; `none` when no
marker matches. -/
def detect_encoding (raw : List Nat) : Option EncTag :=
  if List.isPrefixOf [255, 254, 0, 0] raw then some .utf32
  else if List.isPrefixOf [0, 0, 254, 255] raw then some .utf32
  else if List.isPrefixOf [255, 254] raw then some .utf16
  else if List.isPrefixOf [254, 255] raw then some .utf16
  else if List.isPrefixOf [239, 187, 191] raw then some .utf8sig
  else none

/-- CPython's `utf-16` codec on decoding: a leading byte-order marker selects
the endianness and is consumed; otherwise native (little-endian) order. -/
def pyUtf16Decode (l : List Nat) : Option (List Nat) :=
  if List.isPrefixOf [255, 254] l then utf16LEDecode (l.drop 2)
  else if List.isPrefixOf [254, 255] l then utf16BEDecode (l.drop 2)
  else utf16LEDecode l

/-- CPython's `utf-32` codec on decoding. -/
def pyUtf32Decode (l : List Nat) : Option (List Nat) :=
  if List.isPrefixOf [255, 254, 0, 0] l then utf32LEDecode (l.drop 4)
  else if List.isPrefixOf [0, 0, 254, 255] l then utf32BEDecode (l.drop 4)
  else utf32LEDecode l

/-- CPython's `utf-8-sig` codec on decoding: strip one leading UTF-8 marker
if present, then strict UTF-8. -/
def pyUtf8SigDecode (l : List Nat) : Option (List Nat) :=
  if List.isPrefixOf [239, 187, 191] l then utf8Decode (l.drop 3)
  else utf8Decode l

/-- The decoder `open(path, "r", encoding=tag)` / `raw.decode(tag)` uses for
each encoding tag. -/
def pyDecodeTag : EncTag → List Nat → Option (List Nat)
  | .utf32, l => pyUtf32Decode l
  | .utf16, l => pyUtf16Decode l
  | .utf8sig, l => pyUtf8SigDecode l
  | .utf8, l => utf8Decode l
  | .cp1252, l => cp1252Decode l
  | .latin1, l => latin1Decode l

/-- The encoder `open(path, "w", encoding=tag, newline="")` uses for each
encoding tag; the `utf-32`, `utf-16` and `utf-8-sig` codecs emit their
byte-order marker (native little-endian order for the first two) before the
encoded body. -/
def pyEncodeTag : EncTag → List Nat → Option (List Nat)
  | .utf32, s => (utf32LEEncode s).map ([255, 254, 0, 0] ++ ·)
  | .utf16, s => (utf16LEEncode s).map ([255, 254] ++ ·)
  | .utf8sig, s => (utf8Encode s).map ([239, 187, 191] ++ ·)
  | .utf8, s => utf8Encode s
  | .cp1252, s => cp1252Encode s
  | .latin1, s => latin1Encode s

/-- The `if content and content[0] == '﻿': content = content[1:]` strip
performed by `read_with_encoding` after decoding. -/
def stripLeadingBOMChar : List Nat → List Nat
  | [] => []
  | c :: r => if c = 65279 then r else c :: r

/-- `read_with_encoding(path)` over the file's bytes. The result carries the
decoded content, the detected tag, and whether the final permissive
`errors="replace"` branch was taken; `none` models a propagated
`UnicodeDecodeError` (only possible on the byte-order-marker branch, which
opens the file in text mode and therefore also applies the universal-newline
translation). -/
def read_with_encoding (raw : List Nat) : Option (List Nat × EncTag × Bool) :=
  match detect_encoding raw with
  | some enc =>
    match pyDecodeTag enc raw with
    | none => none
    | some content => some (stripLeadingBOMChar (univNewlines content), enc, false)
  | none =>
    match utf8Decode raw with
    | some c => some (stripLeadingBOMChar c, .utf8, false)
    | none =>
      match cp1252Decode raw with
      | some c => some (stripLeadingBOMChar c, .cp1252, false)
      | none =>
        match latin1Decode raw with
        | some c => some (stripLeadingBOMChar c, .latin1, false)
        | none => some (stripLeadingBOMChar (latin1ReplaceDecode raw), .latin1, true)

/-- `read_lines_with_encoding(path)`: decode, then split into lines with the
terminators kept. -/
def read_lines_with_encoding (raw : List Nat) : Option (List (List Nat) × EncTag × Bool) :=
  (read_with_encoding raw).map (fun p => (splitlinesKeepends p.1, p.2.1, p.2.2))

/-- `write_lines_with_encoding(path, lines, encoding)`: join the lines and
encode them with the given tag, no newline normalization (`newline=""`);
`none` models a propagated `UnicodeEncodeError`. -/
def write_lines_with_encoding (lines : List (List Nat)) (enc : EncTag) : Option (List Nat) :=
  pyEncodeTag enc (joinLines lines)

/-! ## Edit engine (`aiedit.py`) -/

/-- The configuration values the edit engine and backup store read through
`cfg(...)`, with their defaults. -/
structure Config where
  backupEnabled : Bool
  backupMax : Nat
  confirmLargeDelete : Int
  createIfMissing : Bool
deriving DecidableEq, Repr

/-- The argparse surface of one `aiedit` invocation. `content` is the raw
`-c` string (before escape expansion); `lineEnd` is the optional second line
argument. -/
structure EditArgs where
  lineStart : Int
  lineEnd : Option Int
  content : Option (List Nat)
  useStdin : Bool
  force : Bool
  noBackup : Bool
deriving DecidableEq, Repr

/-- `args.line_end if args.line_end else args.line_start`: Python truthiness
makes both a missing end argument and an explicit `0` fall back to the start
line. -/
def effectiveEnd (args : EditArgs) : Int :=
  match args.lineEnd with
  | some e => if e ≠ 0 then e else args.lineStart
  | none => args.lineStart

/-- `parse_content(content_str, use_stdin)`: pick raw text from stdin or the
escape-expanded `-c` argument (`none` models the `sys.exit(1)` when neither
is given), split on `"\n"`, terminate every segment with a newline, and drop
the trailing empty line produced by a final newline in the input. -/
def parse_content (contentStr : Option (List Nat)) (useStdin : Bool) (stdinData : List Nat) :
    Option (List (List Nat)) :=
  let raw? : Option (List Nat) := if useStdin then some stdinData else contentStr.map expandEscapes
  match raw? with
  | none => none
  | some raw =>
    let result := (splitOnNL raw).map (· ++ [10])
    if raw.getLast? = some 10 ∧ 1 < result.length ∧ result.getLast? = some [10] then
      some result.dropLast
    else some result

/-- The outcome of the `do_backup` step of one edit: not reached at all,
skipped because `backup.enabled` is off, snapshot saved, failure downgraded
to a printed warning, or a `SystemExit` escaping the `except Exception`
handler and aborting the process. -/
inductive BackupStep where
  | notInvoked | skipped | saved | warned | fatal (code : Nat)
deriving DecidableEq, Repr

/-- `do_backup(filepath)`: skip when backups are disabled; otherwise call
`save_backup`, whose `sys.exit(1)` on a missing file raises `SystemExit`
(not an `Exception`, hence NOT caught), while any other failure (modelled by
the `ioFail` oracle: directory creation or copy error) is caught and printed
as a warning. -/
def do_backup (backupEnabled fileExists ioFail : Bool) : BackupStep :=
  if ¬ backupEnabled then .skipped
  else if ¬ fileExists then .fatal 1
  else if ioFail then .warned
  else .saved

/-- What happened to the target file on disk by the end of one command. -/
inductive WriteOut where
  | notAttempted | wrote (bytes : List Nat) | failed
deriving DecidableEq, Repr

/-- The observable result of one edit command: the process exit status, the
write performed (if any), and the backup step reached. -/
structure EditResult where
  exitCode : Nat
  write : WriteOut
  backup : BackupStep
deriving DecidableEq, Repr

/-- `cmd_replace`: validate start and (effective) end against the current
line count, parse content, auto-backup, splice the replacement into the
inclusive slice `[start, end]`, and write. -/
def cmd_replace (c : Config) (fileExists ioFail : Bool) (stdinData : List Nat)
    (lines : List (List Nat)) (enc : EncTag) (args : EditArgs) : EditResult :=
  let total : Int := lines.length
  let start := args.lineStart
  let endL := effectiveEnd args
  if start < 1 then ⟨1, .notAttempted, .notInvoked⟩
  else if start > total then ⟨1, .notAttempted, .notInvoked⟩
  else if endL < 1 then ⟨1, .notAttempted, .notInvoked⟩
  else if endL > total then ⟨1, .notAttempted, .notInvoked⟩
  else if start > endL then ⟨1, .notAttempted, .notInvoked⟩
  else
    match parse_content args.content args.useStdin stdinData with
    | none => ⟨1, .notAttempted, .notInvoked⟩
    | some newContent =>
      let step := if ¬ args.noBackup then do_backup c.backupEnabled fileExists ioFail
                  else .skipped
      match step with
      | .fatal code => ⟨code, .notAttempted, .fatal code⟩
      | _ =>
        let newLines := lines.take (start - 1).toNat ++ newContent ++ lines.drop endL.toNat
        match write_lines_with_encoding newLines enc with
        | some bytes => ⟨0, .wrote bytes, step⟩
        | none => ⟨1, .failed, step⟩

/-- `cmd_insert`: valid iff `1 ≤ line ≤ total + 1`; inserts the parsed
content before line `line`. -/
def cmd_insert (c : Config) (fileExists ioFail : Bool) (stdinData : List Nat)
    (lines : List (List Nat)) (enc : EncTag) (args : EditArgs) : EditResult :=
  let total : Int := lines.length
  let lineNum := args.lineStart
  if lineNum < 1 ∨ lineNum > total + 1 then ⟨1, .notAttempted, .notInvoked⟩
  else
    match parse_content args.content args.useStdin stdinData with
    | none => ⟨1, .notAttempted, .notInvoked⟩
    | some newContent =>
      let step := if ¬ args.noBackup then do_backup c.backupEnabled fileExists ioFail
                  else .skipped
      match step with
      | .fatal code => ⟨code, .notAttempted, .fatal code⟩
      | _ =>
        let newLines := lines.take (lineNum - 1).toNat ++ newContent ++ lines.drop (lineNum - 1).toNat
        match write_lines_with_encoding newLines enc with
        | some bytes => ⟨0, .wrote bytes, step⟩
        | none => ⟨1, .failed, step⟩

/-- `cmd_append`: valid iff `1 ≤ line ≤ total`; inserts the parsed content
immediately after line `line`. -/
def cmd_append (c : Config) (fileExists ioFail : Bool) (stdinData : List Nat)
    (lines : List (List Nat)) (enc : EncTag) (args : EditArgs) : EditResult :=
  let total : Int := lines.length
  let lineNum := args.lineStart
  if lineNum < 1 then ⟨1, .notAttempted, .notInvoked⟩
  else if lineNum > total then ⟨1, .notAttempted, .notInvoked⟩
  else
    match parse_content args.content args.useStdin stdinData with
    | none => ⟨1, .notAttempted, .notInvoked⟩
    | some newContent =>
      let step := if ¬ args.noBackup then do_backup c.backupEnabled fileExists ioFail
                  else .skipped
      match step with
      | .fatal code => ⟨code, .notAttempted, .fatal code⟩
      | _ =>
        let newLines := lines.take lineNum.toNat ++ newContent ++ lines.drop lineNum.toNat
        match write_lines_with_encoding newLines enc with
        | some bytes => ⟨0, .wrote bytes, step⟩
        | none => ⟨1, .failed, step⟩

/-- `cmd_delete`: validate the (effective) range, apply the large-delete gate
(`count > edit.confirm_large_delete` requires `--force`), auto-backup, delete
the inclusive slice, and write. -/
def cmd_delete (c : Config) (fileExists ioFail : Bool)
    (lines : List (List Nat)) (enc : EncTag) (args : EditArgs) : EditResult :=
  let total : Int := lines.length
  let start := args.lineStart
  let endL := effectiveEnd args
  if start < 1 then ⟨1, .notAttempted, .notInvoked⟩
  else if start > total then ⟨1, .notAttempted, .notInvoked⟩
  else if endL < 1 then ⟨1, .notAttempted, .notInvoked⟩
  else if endL > total then ⟨1, .notAttempted, .notInvoked⟩
  else if start > endL then ⟨1, .notAttempted, .notInvoked⟩
  else if endL - start + 1 > c.confirmLargeDelete ∧ ¬ args.force then
    ⟨1, .notAttempted, .notInvoked⟩
  else
    let step := if ¬ args.noBackup then do_backup c.backupEnabled fileExists ioFail
                else .skipped
    match step with
    | .fatal code => ⟨code, .notAttempted, .fatal code⟩
    | _ =>
      let newLines := lines.take (start - 1).toNat ++ lines.drop endL.toNat
      match write_lines_with_encoding newLines enc with
      | some bytes => ⟨0, .wrote bytes, step⟩
      | none => ⟨1, .failed, step⟩

/-- `read_file(path)` in `aiedit.py`: a missing file yields an empty document
tagged utf-8 when `edit.create_if_missing` is on and aborts otherwise; a
read/decode failure also aborts (`none`). -/
def read_file (c : Config) (fileExists : Bool) (raw : List Nat) :
    Option (List (List Nat) × EncTag) :=
  if ¬ fileExists then
    if c.createIfMissing then some ([], .utf8) else none
  else
    (read_lines_with_encoding raw).map (fun p => (p.1, p.2.1))

/-! ## Backup store (`aibackup.py`)

Snapshot filenames are code-point lists. The backup directory for one target
file is the list of filenames it contains, in creation order (duplicates
impossible: a copy to an existing name overwrites it). -/

/-- The ASCII fragment of Python's `str.isalnum` (digits and letters). Tags
are restricted to ASCII in the theorems below; non-ASCII alphanumerics,
which Python would also keep, are outside the model. -/
def pyIsAlnum (c : Nat) : Bool :=
  (48 ≤ c && c ≤ 57) || (65 ≤ c && c ≤ 90) || (97 ≤ c && c ≤ 122)

/-- The tag sanitization in `backup_filename`: keep alphanumerics, `-` (45)
and `_` (95); replace every other character with `_`. -/
def sanitizeTagSave (tag : List Nat) : List Nat :=
  tag.map (fun c => if pyIsAlnum c || c = 45 || c = 95 then c else 95)

/-- The tag sanitization in `cmd_restore` (textually the same expression in
the source). -/
def sanitizeTagRestore (tag : List Nat) : List Nat :=
  tag.map (fun c => if pyIsAlnum c || c = 45 || c = 95 then c else 95)

/-- `backup_filename(filepath, tag)`: `basename.timestamp[.sanitized-tag]`
(46 is `.`). -/
def backup_filename (base ts : List Nat) (tag : Option (List Nat)) : List Nat :=
  match tag with
  | some t => base ++ [46] ++ ts ++ [46] ++ sanitizeTagSave t
  | none => base ++ [46] ++ ts

/-- Lexicographic (code-point) order on names, as Python compares strings:
`nameLe a b` is `a <= b`. -/
def nameLe : List Nat → List Nat → Bool
  | [], _ => true
  | _ :: _, [] => false
  | a :: as, b :: bs => if a < b then true else if b < a then false else nameLe as bs

/-- Strict lexicographic order on names: `nameLt a b` is `a < b`. -/
def nameLt : List Nat → List Nat → Bool
  | [], [] => false
  | [], _ :: _ => true
  | _ :: _, [] => false
  | a :: as, b :: bs => if a < b then true else if b < a then false else nameLt as bs

/-- Stable insertion of a name into a sorted list (the building block of the
sort applied by `list_backups`). -/
def insertName (a : List Nat) : List (List Nat) → List (List Nat)
  | [] => [a]
  | b :: bs => if nameLe a b then a :: b :: bs else b :: insertName a bs

/-- `backups.sort(key=lambda x: x[1])`: sort the backup names
lexicographically (insertion sort — Python's sort is stable, and the
directories handled here never hold duplicate names). -/
def sortNames : List (List Nat) → List (List Nat)
  | [] => []
  | a :: as => insertName a (sortNames as)

/-- `list_backups(filepath)`: the directory entries whose name starts with
`basename.`, sorted by name. -/
def list_backups (base : List Nat) (dir : List (List Nat)) : List (List Nat) :=
  sortNames (dir.filter (fun f => List.isPrefixOf (base ++ [46]) f))

/-- `os.remove` of one name from the directory. -/
def removeFile (dir : List (List Nat)) (o : List Nat) : List (List Nat) :=
  dir.filter (fun f => f ≠ o)

/-- The `while len(backups) > max_b: os.remove(backups.pop(0))` loop of
`prune_backups`, acting on the sorted backup list and the directory. -/
def pruneLoop (maxB : Nat) : List (List Nat) → List (List Nat) → List (List Nat)
  | bs, dir =>
    if bs.length > maxB then
      match bs with
      | [] => dir
      | o :: rest => pruneLoop maxB rest (removeFile dir o)
    else dir

/-- `prune_backups(filepath)`: delete oldest backups while the count exceeds
`backup.max_backups`. -/
def prune_backups (maxB : Nat) (base : List Nat) (dir : List (List Nat)) : List (List Nat) :=
  pruneLoop maxB (list_backups base dir) dir

/-- `shutil.copy2(filepath, dest)` into the backup directory: a new name is
appended; copying onto an existing name overwrites it in place. -/
def copyInto (dir : List (List Nat)) (name : List Nat) : List (List Nat) :=
  if name ∈ dir then dir else dir ++ [name]

/-- The backup-directory effect of `save_backup(filepath, tag)` when the
target file exists: build the snapshot name from the current timestamp, copy,
then prune. (The `sys.exit(1)` guard for a missing file is modelled in
`do_backup`.) -/
def save_backup_store (maxB : Nat) (base ts : List Nat) (tag : Option (List Nat))
    (dir : List (List Nat)) : List (List Nat) :=
  prune_backups maxB base (copyInto dir (backup_filename base ts tag))

/-- Substring test: `needle in hay` on Python strings. -/
def listContains (needle : List Nat) : List Nat → Bool
  | [] => List.isPrefixOf needle []
  | c :: t => if List.isPrefixOf needle (c :: t) then true else listContains needle t

/-- The error states of `cmd_restore` (distinguished by their messages:
`no backups found` versus `no backup with tag`). -/
inductive RestoreErr where
  | noBackups | tagNotFound
deriving DecidableEq, Repr

/-- The observable result of `aibackup restore`: exit status, error kind,
backup directory afterwards, whether the `pre-restore` safety snapshot was
taken, and the snapshot copied over the target (if any). -/
structure RestoreResult where
  exitCode : Nat
  err : Option RestoreErr
  dirAfter : List (List Nat)
  preRestoreSaved : Bool
  copied : Option (List Nat)
deriving DecidableEq, Repr

/-- The code points of the string `pre-restore`. -/
def preRestoreTag : List Nat := [112, 114, 101, 45, 114, 101, 115, 116, 111, 114, 101]

/-- `cmd_restore`: list backups (empty set aborts), resolve the target — by
sanitized-tag substring scanning the sorted list newest-first, or the most
recent when no tag is given — then take a `pre-restore` safety snapshot of an
existing target file and copy the resolved snapshot over it. -/
def cmd_restore (maxB : Nat) (base : List Nat) (dir : List (List Nat))
    (targetExists : Bool) (tag : Option (List Nat)) (nowTs : List Nat) : RestoreResult :=
  let backups := list_backups base dir
  if backups = [] then ⟨1, some .noBackups, dir, false, none⟩
  else
    match tag with
    | some t =>
      let safe := sanitizeTagRestore t
      match backups.reverse.find? (fun name => listContains safe name) with
      | none => ⟨1, some .tagNotFound, dir, false, none⟩
      | some tgt =>
        let dir2 := if targetExists then save_backup_store maxB base nowTs (some preRestoreTag) dir
                    else dir
        ⟨0, none, dir2, targetExists, some tgt⟩
    | none =>
      match backups.getLast? with
      | some tgt =>
        let dir2 := if targetExists then save_backup_store maxB base nowTs (some preRestoreTag) dir
                    else dir
        ⟨0, none, dir2, targetExists, some tgt⟩
      | none => ⟨1, some .noBackups, dir, false, none⟩

/-! ## Line-sequence theory -/

/-- A terminated line: break characters occur only as the final terminator,
which is either `\r\n` or a single break character. -/
def isTermLine : List Nat → Bool
  | [] => false
  | c :: rest =>
    if isBreakChar c then decide (rest = [] ∨ (c = 13 ∧ rest = [10]))
    else isTermLine rest

/-- A bare (unterminated) final line: nonempty and break-free. -/
def isBareLine (l : List Nat) : Bool :=
  !l.isEmpty && l.all (fun c => !isBreakChar c)

/-- A well-formed line sequence: every line but the last is terminated, the
last is terminated or bare, and no line ending in a lone `\r` is followed by
a line starting with `\n` (which `splitlines` would merge into `\r\n`). -/
def wfLines : List (List Nat) → Bool
  | [] => true
  | [l] => isTermLine l || isBareLine l
  | a :: b :: rest =>
    isTermLine a && !(a.getLast? == some 13 && b.head? == some 10) && wfLines (b :: rest)

/-- The unfolding equation of `splitlinesKeepends` on a cons cell that is not
a `\r\n` pair. -/
theorem splitlines_cons_eq (c : Nat) (rest : List Nat)
    (hne : ∀ rest2, c = 13 → rest = 10 :: rest2 → False) :
    splitlinesKeepends (c :: rest) =
      if isBreakChar c then [c] :: splitlinesKeepends rest
      else
        match splitlinesKeepends rest with
        | [] => [[c]]
        | l :: ls => (c :: l) :: ls := by
  rw [splitlinesKeepends]
  exact hne

theorem joinLines_splitlines (c : List Nat) : joinLines (splitlinesKeepends c) = c := by
  induction c using splitlinesKeepends.induct with
  | case1 => rfl
  | case2 r ih => simpa [splitlinesKeepends, joinLines] using ih
  | case3 c rest hne hbr ih =>
    rw [splitlines_cons_eq c rest hne]
    simp only [hbr, if_true]
    simpa [joinLines] using ih
  | case4 c rest hne hbr hsp ih =>
    rw [splitlines_cons_eq c rest hne]
    simp only [hbr, if_false]
    rw [hsp] at ih ⊢
    simp [joinLines] at ih ⊢
    exact ih
  | case5 c rest hne hbr l ls hsp ih =>
    rw [splitlines_cons_eq c rest hne]
    simp only [hbr, if_false]
    rw [hsp] at ih ⊢
    simp [joinLines] at ih ⊢
    exact ih

theorem splitlines_bare (l : List Nat) (h1 : l ≠ [])
    (h2 : ∀ x ∈ l, isBreakChar x = false) : splitlinesKeepends l = [l] := by
  induction l with
  | nil => exact absurd rfl h1
  | cons c rest ih =>
    have hc : isBreakChar c = false := h2 c (by simp)
    have hne : ∀ rest2, c = 13 → rest = 10 :: rest2 → False := by
      intro rest2 h13 _
      rw [h13] at hc
      simp [isBreakChar] at hc
    rw [splitlines_cons_eq c rest hne]
    simp only [hc, if_false]
    rcases hrest : rest with _ | ⟨d, r⟩
    · simp [splitlinesKeepends]
    · rw [← hrest]
      have : splitlinesKeepends rest = [rest] := by
        apply ih
        · rw [hrest]; simp
        · intro x hx
          exact h2 x (List.mem_cons_of_mem c hx)
      rw [this]
      simp

theorem splitlines_term_append (body t r : List Nat)
    (hb : ∀ x ∈ body, isBreakChar x = false)
    (ht : t = [13, 10] ∨ ∃ ch, t = [ch] ∧ isBreakChar ch = true)
    (hj : ¬ (t = [13] ∧ r.head? = some 10)) :
    splitlinesKeepends (body ++ t ++ r) = (body ++ t) :: splitlinesKeepends r := by
  induction body with
  | nil =>
    simp only [List.nil_append]
    rcases ht with h1310 | ⟨ch, hch, hbr⟩
    · subst h1310
      simp [splitlinesKeepends]
    · subst hch
      have hne : ∀ rest2, ch = 13 → r = 10 :: rest2 → False := by
        intro rest2 h13 hr
        exact hj ⟨by rw [h13], by rw [hr]; rfl⟩
      have : [ch] ++ r = ch :: r := rfl
      rw [this, splitlines_cons_eq ch r hne]
      simp [hbr]
  | cons c body ih =>
    have hc : isBreakChar c = false := hb c (by simp)
    have ihr := ih (fun x hx => hb x (List.mem_cons_of_mem c hx))
    have hne : ∀ rest2, c = 13 → body ++ t ++ r = 10 :: rest2 → False := by
      intro rest2 h13 _
      rw [h13] at hc
      simp [isBreakChar] at hc
    have : (c :: body) ++ t ++ r = c :: (body ++ t ++ r) := by simp
    rw [this, splitlines_cons_eq c (body ++ t ++ r) hne]
    simp only [hc, if_false]
    rw [ihr]
    simp

theorem isTermLine_shape (l : List Nat) (h : isTermLine l = true) :
    ∃ body t, l = body ++ t ∧ (∀ x ∈ body, isBreakChar x = false) ∧
      (t = [13, 10] ∨ ∃ ch, t = [ch] ∧ isBreakChar ch = true) ∧
      (l.getLast? = some 13 ↔ t = [13]) := by
  induction l with
  | nil => simp [isTermLine] at h
  | cons c rest ih =>
    rw [isTermLine] at h
    by_cases hbr : isBreakChar c = true
    · rw [if_pos hbr] at h
      have h2 : rest = [] ∨ (c = 13 ∧ rest = [10]) := of_decide_eq_true h
      rcases h2 with hnil | ⟨h13, h10⟩
      · subst hnil
        refine ⟨[], [c], by simp, by simp, Or.inr ⟨c, rfl, hbr⟩, ?_⟩
        simp only [List.getLast?_singleton]
        constructor
        · intro hc; injection hc with hc; rw [hc]
        · intro hc; injection hc with hc; rw [hc]
      · subst h13; subst h10
        refine ⟨[], [13, 10], by simp, by simp, Or.inl rfl, ?_⟩
        constructor
        · intro hc; simp [List.getLast?] at hc
        · intro hc; simp at hc
    · rw [if_neg hbr] at h
      obtain ⟨body, t, heq, hbody, ht, hlast⟩ := ih h
      have htne : t ≠ [] := by
        rcases ht with h1 | ⟨ch, hch, _⟩
        · rw [h1]; simp
        · rw [hch]; simp
      have hrestne : rest ≠ [] := by
        rw [heq]
        intro hcon
        rcases List.append_eq_nil.mp hcon with ⟨_, h2⟩
        exact htne h2
      refine ⟨c :: body, t, by rw [heq]; rfl, ?_, ht, ?_⟩
      · intro x hx
        rcases List.mem_cons.mp hx with h1 | h2
        · rw [h1]; exact eq_false_of_ne_true hbr
        · exact hbody x h2
      · have hgl : (c :: rest).getLast? = rest.getLast? := by
          rcases rest with _ | ⟨d, r⟩
          · exact absurd rfl hrestne
          · rw [List.getLast?_cons_cons]
        rw [hgl]
        exact hlast

theorem isTermLine_ne_nil (l : List Nat) (h : isTermLine l = true) : l ≠ [] := by
  intro hcon
  rw [hcon] at h
  simp [isTermLine] at h

theorem isBareLine_ne_nil (l : List Nat) (h : isBareLine l = true) : l ≠ [] := by
  intro hcon
  rw [hcon] at h
  simp [isBareLine] at h

theorem wfLines_head_ne_nil (b : List Nat) (rest : List (List Nat))
    (h : wfLines (b :: rest) = true) : b ≠ [] := by
  rcases rest with _ | ⟨x, xs⟩
  · rw [wfLines] at h
    rcases Bool.or_eq_true_iff.mp h with h1 | h2
    · exact isTermLine_ne_nil b h1
    · exact isBareLine_ne_nil b h2
  · rw [wfLines] at h
    simp only [Bool.and_eq_true] at h
    exact isTermLine_ne_nil b h.1.1

theorem splitlines_joinLines (ls : List (List Nat)) (h : wfLines ls = true) :
    splitlinesKeepends (joinLines ls) = ls := by
  induction ls with
  | nil => rfl
  | cons a rest ih =>
    rcases rest with _ | ⟨b, rest2⟩
    · rw [wfLines] at h
      rcases Bool.or_eq_true_iff.mp h with h1 | h2
      · obtain ⟨body, t, heq, hbody, ht, _⟩ := isTermLine_shape a h1
        have : joinLines [a] = body ++ t ++ [] := by simp [joinLines, heq]
        rw [this, splitlines_term_append body t [] hbody ht (by simp)]
        rw [heq]
        rfl
      · have h3 : a ≠ [] := isBareLine_ne_nil a h2
        have h4 : ∀ x ∈ a, isBreakChar x = false := by
          intro x hx
          have := (Bool.and_eq_true_iff.mp h2).2
          rw [List.all_eq_true] at this
          simpa using this x hx
        have : joinLines [a] = a := by simp [joinLines]
        rw [this, splitlines_bare a h3 h4]
    · rw [wfLines] at h
      simp only [Bool.and_eq_true] at h
      obtain ⟨⟨hterm, hjun⟩, hwf⟩ := h
      obtain ⟨body, t, heq, hbody, ht, hlast⟩ := isTermLine_shape a hterm
      have hbne : b ≠ [] := wfLines_head_ne_nil b rest2 hwf
      have hjoin : joinLines (a :: b :: rest2) = body ++ t ++ joinLines (b :: rest2) := by
        simp [joinLines, heq]
      have hhead : (joinLines (b :: rest2)).head? = b.head? := by
        rcases b with _ | ⟨x, xs⟩
        · exact absurd rfl hbne
        · simp [joinLines]
      have hj : ¬ (t = [13] ∧ (joinLines (b :: rest2)).head? = some 10) := by
        rintro ⟨ht13, hh10⟩
        have h13 : a.getLast? = some 13 := hlast.mpr ht13
        rw [hhead] at hh10
        rw [h13, hh10] at hjun
        simp at hjun
      rw [hjoin, splitlines_term_append body t (joinLines (b :: rest2)) hbody ht hj]
      rw [ih hwf, ← heq]

theorem univNewlines_eq_crlf (r : List Nat) :
    univNewlines (13 :: 10 :: r) = 10 :: univNewlines r := by
  rw [univNewlines]

theorem univNewlines_eq_cr (r : List Nat) (h : ∀ r2, r = 10 :: r2 → False) :
    univNewlines (13 :: r) = 10 :: univNewlines r := by
  rw [univNewlines]
  exact h

theorem univNewlines_eq_other (c : Nat) (r : List Nat) (h : c ≠ 13) :
    univNewlines (c :: r) = c :: univNewlines r := by
  rw [univNewlines]
  · intro r2 hc _
    exact h hc
  · intro hc
    exact h hc

theorem univNewlines_no13 (l : List Nat) : 13 ∉ univNewlines l := by
  induction l using univNewlines.induct with
  | case1 => simp [univNewlines]
  | case2 r ih =>
    rw [univNewlines_eq_crlf]
    intro hmem
    rcases List.mem_cons.mp hmem with hc | hr
    · simp at hc
    · exact ih hr
  | case3 r h ih =>
    rw [univNewlines_eq_cr r h]
    intro hmem
    rcases List.mem_cons.mp hmem with hc | hr
    · simp at hc
    · exact ih hr
  | case4 c r h1 h2 ih =>
    rw [univNewlines_eq_other c r (fun hc => h2 hc)]
    intro hmem
    rcases List.mem_cons.mp hmem with hc | hr
    · exact h2 hc.symm
    · exact ih hr

theorem univNewlines_eq_self (l : List Nat) (h : 13 ∉ l) : univNewlines l = l := by
  induction l with
  | nil => rfl
  | cons c r ih =>
    have hc : c ≠ 13 := by
      rintro rfl
      exact h (List.mem_cons_self 13 r)
    have hr : 13 ∉ r := fun hm => h (List.mem_cons_of_mem c hm)
    rw [univNewlines_eq_other c r hc, ih hr]

theorem mem_univNewlines (l : List Nat) (x : Nat) (h : x ∈ univNewlines l) :
    x ∈ l ∨ x = 10 := by
  induction l using univNewlines.induct with
  | case1 => simp [univNewlines] at h
  | case2 r ih =>
    rw [univNewlines_eq_crlf] at h
    rcases List.mem_cons.mp h with h1 | h2
    · exact Or.inr h1
    · rcases ih h2 with h3 | h3
      · exact Or.inl (by simp [h3])
      · exact Or.inr h3
  | case3 r hne ih =>
    rw [univNewlines_eq_cr r hne] at h
    rcases List.mem_cons.mp h with h1 | h2
    · exact Or.inr h1
    · rcases ih h2 with h3 | h3
      · exact Or.inl (List.mem_cons_of_mem 13 h3)
      · exact Or.inr h3
  | case4 c r h1 h2 ih =>
    rw [univNewlines_eq_other c r (fun hc => h2 hc)] at h
    rcases List.mem_cons.mp h with h3 | h4
    · exact Or.inl (by simp [h3])
    · rcases ih h4 with h5 | h5
      · exact Or.inl (List.mem_cons_of_mem c h5)
      · exact Or.inr h5

theorem stripLeadingBOMChar_eq_self (l : List Nat) (h : l.head? ≠ some 65279) :
    stripLeadingBOMChar l = l := by
  rcases l with _ | ⟨c, r⟩
  · rfl
  · have hc : c ≠ 65279 := by
      intro hcon
      exact h (by rw [hcon]; rfl)
    simp [stripLeadingBOMChar, hc]

theorem mem_stripLeadingBOMChar (l : List Nat) (x : Nat) (h : x ∈ stripLeadingBOMChar l) :
    x ∈ l := by
  rcases l with _ | ⟨c, r⟩
  · simpa [stripLeadingBOMChar] using h
  · by_cases hc : c = 65279
    · subst hc
      simp [stripLeadingBOMChar] at h
      exact List.mem_cons_of_mem 65279 h
    · simp [stripLeadingBOMChar, hc] at h
      rcases h with h1 | h1
      · simp [h1]
      · exact List.mem_cons_of_mem c h1

/-! ## Generic encode/decode round-trip scaffolding -/

theorem mapAllBytes_roundtrip (f g : Nat → Option Nat)
    (hfg : ∀ b c, f b = some c → g c = some b) :
    ∀ l s, mapAllBytes f l = some s → mapAllBytes g s = some l := by
  intro l
  induction l with
  | nil =>
    intro s h
    simp [mapAllBytes] at h
    subst h
    rfl
  | cons b r ih =>
    intro s h
    rw [mapAllBytes] at h
    rcases hfb : f b with _ | c
    · rw [hfb] at h; simp at h
    · rw [hfb] at h
      rcases hrec : mapAllBytes f r with _ | s'
      · rw [hrec] at h; simp at h
      · rw [hrec] at h
        simp at h
        rw [← h, mapAllBytes, hfg b c hfb, ih s' hrec]
        rfl

theorem mapAllBytes_some_of_mem (f : Nat → Option Nat) (l : List Nat)
    (h : ∀ b ∈ l, (f b).isSome) : ∃ s, mapAllBytes f l = some s := by
  induction l with
  | nil => exact ⟨[], rfl⟩
  | cons b r ih =>
    obtain ⟨c, hc⟩ := Option.isSome_iff_exists.mp (h b (by simp))
    obtain ⟨s', hs'⟩ := ih (fun x hx => h x (List.mem_cons_of_mem b hx))
    exact ⟨c :: s', by rw [mapAllBytes, hc, hs']; rfl⟩

theorem mapAllBytes_mem_isSome (f : Nat → Option Nat) (l s : List Nat)
    (h : mapAllBytes f l = some s) : ∀ b ∈ l, (f b).isSome := by
  induction l generalizing s with
  | nil => simp
  | cons b r ih =>
    intro x hx
    rw [mapAllBytes] at h
    rcases hfb : f b with _ | c
    · rw [hfb] at h; simp at h
    · rw [hfb] at h
      rcases hrec : mapAllBytes f r with _ | s'
      · rw [hrec] at h; simp at h
      · rcases List.mem_cons.mp hx with h1 | h2
        · rw [h1, hfb]; rfl
        · exact ih s' hrec x h2

theorem encodeAllFlat_decode (f : Nat → Option (List Nat)) (dec : List Nat → Option (List Nat))
    (hnil : dec [] = some [])
    (hstep : ∀ c bs r, f c = some bs → dec (bs ++ r) = (dec r).map (c :: ·)) :
    ∀ s l, encodeAllFlat f s = some l → dec l = some s := by
  intro s
  induction s with
  | nil =>
    intro l h
    simp [encodeAllFlat] at h
    subst h
    exact hnil
  | cons c r ih =>
    intro l h
    rw [encodeAllFlat] at h
    rcases hfc : f c with _ | bs
    · rw [hfc] at h; simp at h
    · rw [hfc] at h
      rcases hrec : encodeAllFlat f r with _ | l'
      · rw [hrec] at h; simp at h
      · rw [hrec] at h
        simp at h
        rw [← h, hstep c bs l' hfc, ih l' hrec]
        rfl

theorem encodeAllFlat_some_of_mem (f : Nat → Option (List Nat)) (s : List Nat)
    (h : ∀ c ∈ s, (f c).isSome) : ∃ l, encodeAllFlat f s = some l := by
  induction s with
  | nil => exact ⟨[], rfl⟩
  | cons c r ih =>
    obtain ⟨bs, hbs⟩ := Option.isSome_iff_exists.mp (h c (by simp))
    obtain ⟨l', hl'⟩ := ih (fun x hx => h x (List.mem_cons_of_mem c hx))
    exact ⟨bs ++ l', by rw [encodeAllFlat, hbs, hl']; rfl⟩

theorem encodeAllFlat_mem_isSome (f : Nat → Option (List Nat)) (s l : List Nat)
    (h : encodeAllFlat f s = some l) : ∀ c ∈ s, (f c).isSome := by
  induction s generalizing l with
  | nil => simp
  | cons c r ih =>
    intro x hx
    rw [encodeAllFlat] at h
    rcases hfc : f c with _ | bs
    · rw [hfc] at h; simp at h
    · rw [hfc] at h
      rcases hrec : encodeAllFlat f r with _ | l'
      · rw [hrec] at h; simp at h
      · rcases List.mem_cons.mp hx with h1 | h2
        · rw [h1, hfc]; rfl
        · exact ih l' hrec x h2

/-! ## UTF-8 round trips -/

theorem utf8Decode_cons (b0 : Nat) (rest : List Nat) :
    utf8Decode (b0 :: rest) =
      match utf8DecodeOne b0 rest with
      | none => none
      | some (c, k) => (utf8Decode (rest.drop k)).map (c :: ·) := by
  rw [utf8Decode]

theorem utf8DecodeOne_1 (b0 : Nat) (rest : List Nat) (h : b0 ≤ 127) :
    utf8DecodeOne b0 rest = some (b0, 0) := by
  rw [utf8DecodeOne.eq_def, if_pos h]

theorem utf8DecodeOne_2 (b0 b1 : Nat) (r : List Nat)
    (h0 : 194 ≤ b0 ∧ b0 ≤ 223) (h1 : 128 ≤ b1 ∧ b1 ≤ 191) :
    utf8DecodeOne b0 (b1 :: r) = some ((b0 - 192) * 64 + (b1 - 128), 1) := by
  rw [utf8DecodeOne.eq_def, if_neg (by omega), if_pos h0]
  simp [h1]

theorem utf8DecodeOne_E0 (b1 b2 : Nat) (r : List Nat)
    (h1 : 160 ≤ b1 ∧ b1 ≤ 191) (h2 : 128 ≤ b2 ∧ b2 ≤ 191) :
    utf8DecodeOne 224 (b1 :: b2 :: r) = some ((b1 - 128) * 64 + (b2 - 128), 2) := by
  rw [utf8DecodeOne.eq_def, if_neg (by omega), if_neg (by omega), if_pos rfl]
  simp [h1.1, h1.2, h2.1, h2.2]

theorem utf8DecodeOne_3 (b0 b1 b2 : Nat) (r : List Nat)
    (h0 : (225 ≤ b0 ∧ b0 ≤ 236) ∨ b0 = 238 ∨ b0 = 239)
    (h1 : 128 ≤ b1 ∧ b1 ≤ 191) (h2 : 128 ≤ b2 ∧ b2 ≤ 191) :
    utf8DecodeOne b0 (b1 :: b2 :: r) =
      some ((b0 - 224) * 4096 + (b1 - 128) * 64 + (b2 - 128), 2) := by
  rw [utf8DecodeOne.eq_def, if_neg (by omega), if_neg (by omega), if_neg (by omega), if_pos h0]
  simp [h1.1, h1.2, h2.1, h2.2]

theorem utf8DecodeOne_ED (b1 b2 : Nat) (r : List Nat)
    (h1 : 128 ≤ b1 ∧ b1 ≤ 159) (h2 : 128 ≤ b2 ∧ b2 ≤ 191) :
    utf8DecodeOne 237 (b1 :: b2 :: r) = some (13 * 4096 + (b1 - 128) * 64 + (b2 - 128), 2) := by
  rw [utf8DecodeOne.eq_def, if_neg (by omega), if_neg (by omega), if_neg (by omega),
    if_neg (by omega), if_pos rfl]
  simp [h1.1, h1.2, h2.1, h2.2]

theorem utf8DecodeOne_F0 (b1 b2 b3 : Nat) (r : List Nat)
    (h1 : 144 ≤ b1 ∧ b1 ≤ 191) (h2 : 128 ≤ b2 ∧ b2 ≤ 191) (h3 : 128 ≤ b3 ∧ b3 ≤ 191) :
    utf8DecodeOne 240 (b1 :: b2 :: b3 :: r) =
      some ((b1 - 128) * 4096 + (b2 - 128) * 64 + (b3 - 128), 3) := by
  rw [utf8DecodeOne.eq_def, if_neg (by omega), if_neg (by omega), if_neg (by omega),
    if_neg (by omega), if_neg (by omega), if_pos rfl]
  simp [h1.1, h1.2, h2.1, h2.2, h3.1, h3.2]

theorem utf8DecodeOne_4 (b0 b1 b2 b3 : Nat) (r : List Nat)
    (h0 : 241 ≤ b0 ∧ b0 ≤ 243)
    (h1 : 128 ≤ b1 ∧ b1 ≤ 191) (h2 : 128 ≤ b2 ∧ b2 ≤ 191) (h3 : 128 ≤ b3 ∧ b3 ≤ 191) :
    utf8DecodeOne b0 (b1 :: b2 :: b3 :: r) =
      some ((b0 - 240) * 262144 + (b1 - 128) * 4096 + (b2 - 128) * 64 + (b3 - 128), 3) := by
  rw [utf8DecodeOne.eq_def, if_neg (by omega), if_neg (by omega), if_neg (by omega),
    if_neg (by omega), if_neg (by omega), if_neg (by omega), if_pos h0]
  simp [h1.1, h1.2, h2.1, h2.2, h3.1, h3.2]

theorem utf8DecodeOne_F4 (b1 b2 b3 : Nat) (r : List Nat)
    (h1 : 128 ≤ b1 ∧ b1 ≤ 143) (h2 : 128 ≤ b2 ∧ b2 ≤ 191) (h3 : 128 ≤ b3 ∧ b3 ≤ 191) :
    utf8DecodeOne 244 (b1 :: b2 :: b3 :: r) =
      some (1048576 + (b1 - 128) * 4096 + (b2 - 128) * 64 + (b3 - 128), 3) := by
  rw [utf8DecodeOne.eq_def, if_neg (by omega), if_neg (by omega), if_neg (by omega),
    if_neg (by omega), if_neg (by omega), if_neg (by omega), if_neg (by omega), if_pos rfl]
  simp [h1.1, h1.2, h2.1, h2.2, h3.1, h3.2]

/-- Inversion of one UTF-8 decoding step: the decoded character re-encodes
exactly to the consumed bytes. -/
theorem utf8DecodeOne_inv (b0 : Nat) (rest : List Nat) (c k : Nat)
    (h : utf8DecodeOne b0 rest = some (c, k)) :
    utf8EncodeChar c = some (b0 :: rest.take k) ∧ k ≤ rest.length := by
  by_cases h1 : b0 ≤ 127
  · rw [utf8DecodeOne.eq_def, if_pos h1] at h
    simp at h
    obtain ⟨hc, hk⟩ := h
    subst hc; subst hk
    exact ⟨by rw [utf8EncodeChar, if_pos h1]; rfl, by omega⟩
  by_cases h2 : 194 ≤ b0 ∧ b0 ≤ 223
  · rw [utf8DecodeOne.eq_def, if_neg h1, if_pos h2] at h
    rcases rest with _ | ⟨b1, r⟩
    · simp at h
    · simp at h
      obtain ⟨hcont, hc, hk⟩ := h
      subst hc; subst hk
      refine ⟨?_, by simp⟩
      rw [utf8EncodeChar, if_neg (by omega), if_pos (by omega)]
      have e0 : 192 + ((b0 - 192) * 64 + (b1 - 128)) / 64 = b0 := by omega
      have e1 : 128 + ((b0 - 192) * 64 + (b1 - 128)) % 64 = b1 := by omega
      rw [e0, e1]
      simp
  by_cases h3 : b0 = 224
  · rw [utf8DecodeOne.eq_def, if_neg h1, if_neg h2, if_pos h3] at h
    rcases rest with _ | ⟨b1, r⟩
    · simp at h
    rcases r with _ | ⟨b2, r2⟩
    · simp at h
    simp at h
    obtain ⟨⟨hc1, hc2⟩, hc, hk⟩ := h
    subst hc; subst hk
    refine ⟨?_, by simp⟩
    rw [utf8EncodeChar, if_neg (by omega), if_neg (by omega), if_pos (by omega),
      if_neg (by omega)]
    have e0 : 224 + ((b1 - 128) * 64 + (b2 - 128)) / 4096 = 224 := by omega
    have e1 : 128 + ((b1 - 128) * 64 + (b2 - 128)) / 64 % 64 = b1 := by omega
    have e2 : 128 + ((b1 - 128) * 64 + (b2 - 128)) % 64 = b2 := by omega
    rw [e0, e1, e2]
    subst h3
    simp
  by_cases h4 : (225 ≤ b0 ∧ b0 ≤ 236) ∨ b0 = 238 ∨ b0 = 239
  · rw [utf8DecodeOne.eq_def, if_neg h1, if_neg h2, if_neg h3, if_pos h4] at h
    rcases rest with _ | ⟨b1, r⟩
    · simp at h
    rcases r with _ | ⟨b2, r2⟩
    · simp at h
    simp at h
    obtain ⟨⟨hc1, hc2⟩, hc, hk⟩ := h
    subst hc; subst hk
    refine ⟨?_, by simp⟩
    rw [utf8EncodeChar, if_neg (by omega), if_neg (by omega), if_pos (by omega),
      if_neg (by omega)]
    have e0 : 224 + ((b0 - 224) * 4096 + (b1 - 128) * 64 + (b2 - 128)) / 4096 = b0 := by omega
    have e1 : 128 + ((b0 - 224) * 4096 + (b1 - 128) * 64 + (b2 - 128)) / 64 % 64 = b1 := by omega
    have e2 : 128 + ((b0 - 224) * 4096 + (b1 - 128) * 64 + (b2 - 128)) % 64 = b2 := by omega
    rw [e0, e1, e2]
    simp
  by_cases h5 : b0 = 237
  · rw [utf8DecodeOne.eq_def, if_neg h1, if_neg h2, if_neg h3, if_neg h4, if_pos h5] at h
    rcases rest with _ | ⟨b1, r⟩
    · simp at h
    rcases r with _ | ⟨b2, r2⟩
    · simp at h
    simp at h
    obtain ⟨⟨hc1, hc2⟩, hc, hk⟩ := h
    subst hc; subst hk
    refine ⟨?_, by simp⟩
    rw [utf8EncodeChar, if_neg (by omega), if_neg (by omega), if_pos (by omega),
      if_neg (by omega)]
    have e0 : 224 + (13 * 4096 + (b1 - 128) * 64 + (b2 - 128)) / 4096 = 237 := by omega
    have e1 : 128 + (13 * 4096 + (b1 - 128) * 64 + (b2 - 128)) / 64 % 64 = b1 := by omega
    have e2 : 128 + (13 * 4096 + (b1 - 128) * 64 + (b2 - 128)) % 64 = b2 := by omega
    rw [e0, e1, e2]
    subst h5
    simp
  by_cases h6 : b0 = 240
  · rw [utf8DecodeOne.eq_def, if_neg h1, if_neg h2, if_neg h3, if_neg h4, if_neg h5,
      if_pos h6] at h
    rcases rest with _ | ⟨b1, r⟩
    · simp at h
    rcases r with _ | ⟨b2, r2⟩
    · simp at h
    rcases r2 with _ | ⟨b3, r3⟩
    · simp at h
    simp at h
    obtain ⟨⟨hc1, hc2, hc3⟩, hc, hk⟩ := h
    subst hc; subst hk
    refine ⟨?_, by simp⟩
    rw [utf8EncodeChar, if_neg (by omega), if_neg (by omega), if_neg (by omega),
      if_pos (by omega)]
    have e0 : 240 + ((b1 - 128) * 4096 + (b2 - 128) * 64 + (b3 - 128)) / 262144 = 240 := by omega
    have e1 : 128 + ((b1 - 128) * 4096 + (b2 - 128) * 64 + (b3 - 128)) / 4096 % 64 = b1 := by
      omega
    have e2 : 128 + ((b1 - 128) * 4096 + (b2 - 128) * 64 + (b3 - 128)) / 64 % 64 = b2 := by omega
    have e3 : 128 + ((b1 - 128) * 4096 + (b2 - 128) * 64 + (b3 - 128)) % 64 = b3 := by omega
    rw [e0, e1, e2, e3]
    subst h6
    simp
  by_cases h7 : 241 ≤ b0 ∧ b0 ≤ 243
  · rw [utf8DecodeOne.eq_def, if_neg h1, if_neg h2, if_neg h3, if_neg h4, if_neg h5, if_neg h6,
      if_pos h7] at h
    rcases rest with _ | ⟨b1, r⟩
    · simp at h
    rcases r with _ | ⟨b2, r2⟩
    · simp at h
    rcases r2 with _ | ⟨b3, r3⟩
    · simp at h
    simp at h
    obtain ⟨⟨hc1, hc2, hc3⟩, hc, hk⟩ := h
    subst hc; subst hk
    refine ⟨?_, by simp⟩
    rw [utf8EncodeChar, if_neg (by omega), if_neg (by omega), if_neg (by omega),
      if_pos (by omega)]
    have e0 : 240 + ((b0 - 240) * 262144 + (b1 - 128) * 4096 + (b2 - 128) * 64 + (b3 - 128))
        / 262144 = b0 := by omega
    have e1 : 128 + ((b0 - 240) * 262144 + (b1 - 128) * 4096 + (b2 - 128) * 64 + (b3 - 128))
        / 4096 % 64 = b1 := by omega
    have e2 : 128 + ((b0 - 240) * 262144 + (b1 - 128) * 4096 + (b2 - 128) * 64 + (b3 - 128))
        / 64 % 64 = b2 := by omega
    have e3 : 128 + ((b0 - 240) * 262144 + (b1 - 128) * 4096 + (b2 - 128) * 64 + (b3 - 128))
        % 64 = b3 := by omega
    rw [e0, e1, e2, e3]
    simp
  by_cases h8 : b0 = 244
  · rw [utf8DecodeOne.eq_def, if_neg h1, if_neg h2, if_neg h3, if_neg h4, if_neg h5, if_neg h6,
      if_neg h7, if_pos h8] at h
    rcases rest with _ | ⟨b1, r⟩
    · simp at h
    rcases r with _ | ⟨b2, r2⟩
    · simp at h
    rcases r2 with _ | ⟨b3, r3⟩
    · simp at h
    simp at h
    obtain ⟨⟨hc1, hc2, hc3⟩, hc, hk⟩ := h
    subst hc; subst hk
    refine ⟨?_, by simp⟩
    rw [utf8EncodeChar, if_neg (by omega), if_neg (by omega), if_neg (by omega),
      if_pos (by omega)]
    have e0 : 240 + (1048576 + (b1 - 128) * 4096 + (b2 - 128) * 64 + (b3 - 128)) / 262144
        = 244 := by omega
    have e1 : 128 + (1048576 + (b1 - 128) * 4096 + (b2 - 128) * 64 + (b3 - 128)) / 4096 % 64
        = b1 := by omega
    have e2 : 128 + (1048576 + (b1 - 128) * 4096 + (b2 - 128) * 64 + (b3 - 128)) / 64 % 64
        = b2 := by omega
    have e3 : 128 + (1048576 + (b1 - 128) * 4096 + (b2 - 128) * 64 + (b3 - 128)) % 64 = b3 := by
      omega
    rw [e0, e1, e2, e3]
    subst h8
    simp
  · rw [utf8DecodeOne.eq_def, if_neg h1, if_neg h2, if_neg h3, if_neg h4, if_neg h5, if_neg h6,
      if_neg h7, if_neg h8] at h
    simp at h

/-- Decoding an encoded character at the head of a byte stream consumes
exactly its bytes and recovers the character. -/
theorem utf8Decode_encodeChar (c : Nat) (bs r : List Nat) (h : utf8EncodeChar c = some bs) :
    utf8Decode (bs ++ r) = (utf8Decode r).map (c :: ·) := by
  rw [utf8EncodeChar] at h
  split_ifs at h with h1 h2 h3 hs h4
  · simp at h
    subst h
    rw [List.cons_append, List.nil_append, utf8Decode, utf8DecodeOne_1 c r h1]
    simp
  · simp at h
    subst h
    simp only [List.cons_append, List.nil_append]
    rw [utf8Decode, utf8DecodeOne_2 (192 + c / 64) (128 + c % 64) r (by omega) (by omega)]
    have hv : (192 + c / 64 - 192) * 64 + (128 + c % 64 - 128) = c := by omega
    rw [hv]
    simp
  · simp at h
    subst h
    simp only [List.cons_append, List.nil_append]
    by_cases hc1 : c ≤ 4095
    · have hb0 : 224 + c / 4096 = 224 := by omega
      rw [hb0, utf8Decode, utf8DecodeOne_E0 (128 + c / 64 % 64) (128 + c % 64) r (by omega)
        (by omega)]
      have hv : (128 + c / 64 % 64 - 128) * 64 + (128 + c % 64 - 128) = c := by omega
      rw [hv]
      simp
    · by_cases hc2 : 53248 ≤ c ∧ c ≤ 55295
      · have hb0 : 224 + c / 4096 = 237 := by omega
        rw [hb0, utf8Decode, utf8DecodeOne_ED (128 + c / 64 % 64) (128 + c % 64) r (by omega)
          (by omega)]
        have hv : 13 * 4096 + (128 + c / 64 % 64 - 128) * 64 + (128 + c % 64 - 128) = c := by
          omega
        rw [hv]
        simp
      · rw [utf8Decode, utf8DecodeOne_3 (224 + c / 4096) (128 + c / 64 % 64) (128 + c % 64) r
          (by omega) (by omega) (by omega)]
        have hv : (224 + c / 4096 - 224) * 4096 + (128 + c / 64 % 64 - 128) * 64 +
            (128 + c % 64 - 128) = c := by omega
        rw [hv]
        simp
  · simp at h
    subst h
    simp only [List.cons_append, List.nil_append]
    by_cases hc1 : c ≤ 262143
    · have hb0 : 240 + c / 262144 = 240 := by omega
      rw [hb0, utf8Decode, utf8DecodeOne_F0 (128 + c / 4096 % 64) (128 + c / 64 % 64)
        (128 + c % 64) r (by omega) (by omega) (by omega)]
      have hv : (128 + c / 4096 % 64 - 128) * 4096 + (128 + c / 64 % 64 - 128) * 64 +
          (128 + c % 64 - 128) = c := by omega
      rw [hv]
      simp
    · by_cases hc2 : 1048576 ≤ c
      · have hb0 : 240 + c / 262144 = 244 := by omega
        rw [hb0, utf8Decode, utf8DecodeOne_F4 (128 + c / 4096 % 64) (128 + c / 64 % 64)
          (128 + c % 64) r (by omega) (by omega) (by omega)]
        have hv : 1048576 + (128 + c / 4096 % 64 - 128) * 4096 + (128 + c / 64 % 64 - 128) * 64 +
            (128 + c % 64 - 128) = c := by omega
        rw [hv]
        simp
      · rw [utf8Decode, utf8DecodeOne_4 (240 + c / 262144) (128 + c / 4096 % 64)
          (128 + c / 64 % 64) (128 + c % 64) r (by omega) (by omega) (by omega) (by omega)]
        have hv : (240 + c / 262144 - 240) * 262144 + (128 + c / 4096 % 64 - 128) * 4096 +
            (128 + c / 64 % 64 - 128) * 64 + (128 + c % 64 - 128) = c := by omega
        rw [hv]
        simp

/-- Encode-then-decode identity for UTF-8. -/
theorem utf8Decode_utf8Encode (s l : List Nat) (h : utf8Encode s = some l) :
    utf8Decode l = some s :=
  encodeAllFlat_decode utf8EncodeChar utf8Decode (by rw [utf8Decode])
    (fun c bs r hc => utf8Decode_encodeChar c bs r hc) s l h

theorem utf8Encode_utf8Decode_aux (n : Nat) :
    ∀ l s : List Nat, l.length = n → utf8Decode l = some s → utf8Encode s = some l := by
  induction n using Nat.strong_induction_on with
  | _ n ih =>
    intro l s hn h
    rcases l with _ | ⟨b0, rest⟩
    · simp [utf8Decode] at h
      subst h
      rfl
    · rw [utf8Decode] at h
      rcases hone : utf8DecodeOne b0 rest with _ | ⟨c, k⟩
      · rw [hone] at h; simp at h
      · rw [hone] at h
        have h2 : (utf8Decode (rest.drop k)).map (c :: ·) = some s := h
        rcases hrec : utf8Decode (rest.drop k) with _ | s'
        · rw [hrec] at h2; simp at h2
        · rw [hrec] at h2
          simp at h2
          subst h2
          obtain ⟨henc, hk⟩ := utf8DecodeOne_inv b0 rest c k hone
          have hlen : (rest.drop k).length < n := by
            subst hn
            simp [List.length_drop]
            omega
          have ihe := ih (rest.drop k).length hlen (rest.drop k) s' rfl hrec
          rw [utf8Encode, encodeAllFlat, henc]
          rw [utf8Encode] at ihe
          rw [ihe]
          simp [List.take_append_drop]

/-- Decode-then-encode identity for UTF-8: strict decoding only succeeds on
the canonical encoding. -/
theorem utf8Encode_utf8Decode (l s : List Nat) (h : utf8Decode l = some s) :
    utf8Encode s = some l :=
  utf8Encode_utf8Decode_aux l.length l s rfl h

/-! ## UTF-16 round trips -/

theorem utf16LEUnits_flat (l : List Nat) (us : List Nat) (h : utf16LEUnits l = some us)
    (hb : ∀ b ∈ l, b ≤ 255) :
    us.flatMap (fun u => [u % 256, u / 256]) = l ∧ ∀ u ∈ us, u ≤ 65535 := by
  induction l using utf16LEUnits.induct generalizing us with
  | case1 =>
    simp [utf16LEUnits] at h
    subst h
    simp
  | case2 b => simp [utf16LEUnits] at h
  | case3 lo hi r ih =>
    rw [utf16LEUnits] at h
    rcases hrec : utf16LEUnits r with _ | us'
    · rw [hrec] at h; simp at h
    · rw [hrec] at h
      simp at h
      subst h
      have hlo : lo ≤ 255 := hb lo (by simp)
      have hhi : hi ≤ 255 := hb hi (by simp)
      obtain ⟨ih1, ih2⟩ := ih us' hrec (fun b hbm => hb b (by simp [hbm]))
      constructor
      · simp only [List.flatMap_cons]
        rw [ih1]
        have e1 : (lo + 256 * hi) % 256 = lo := by omega
        have e2 : (lo + 256 * hi) / 256 = hi := by omega
        rw [e1, e2]
        rfl
      · intro u hu
        rcases List.mem_cons.mp hu with h1 | h2
        · omega
        · exact ih2 u h2

theorem utf16Combine_cons_ns (u : Nat) (r : List Nat) (h : u < 55296 ∨ 57343 < u) :
    utf16Combine (u :: r) = (utf16Combine r).map (u :: ·) := by
  rw [utf16Combine.eq_def]
  simp [h]

theorem utf16Combine_cons_pair (u u2 : Nat) (r : List Nat)
    (h1 : ¬ (u < 55296 ∨ 57343 < u)) (h2 : u ≤ 56319) (h3 : 56320 ≤ u2 ∧ u2 ≤ 57343) :
    utf16Combine (u :: u2 :: r) =
      (utf16Combine r).map ((65536 + (u - 55296) * 1024 + (u2 - 56320)) :: ·) := by
  rw [utf16Combine.eq_def]
  simp [h1, h2, h3]

theorem utf16Combine_cons_badpair (u u2 : Nat) (r : List Nat)
    (h1 : ¬ (u < 55296 ∨ 57343 < u)) (h2 : u ≤ 56319) (h3 : ¬ (56320 ≤ u2 ∧ u2 ≤ 57343)) :
    utf16Combine (u :: u2 :: r) = none := by
  rw [utf16Combine.eq_def]
  simp [h1, h2, h3]

theorem utf16Combine_lone_high (u : Nat)
    (h1 : ¬ (u < 55296 ∨ 57343 < u)) (h2 : u ≤ 56319) :
    utf16Combine [u] = none := by
  rw [utf16Combine.eq_def]
  simp [h1, h2]

theorem utf16Combine_low (u : Nat) (r : List Nat)
    (h1 : ¬ (u < 55296 ∨ 57343 < u)) (h2 : ¬ u ≤ 56319) :
    utf16Combine (u :: r) = none := by
  rw [utf16Combine.eq_def]
  simp [h1, h2]

theorem utf16Combine_encode (us s : List Nat) (h : utf16Combine us = some s)
    (hu : ∀ u ∈ us, u ≤ 65535) :
    utf16LEEncode s = some (us.flatMap (fun u => [u % 256, u / 256])) := by
  induction us using utf16Combine.induct generalizing s with
  | case1 =>
    simp [utf16Combine] at h
    subst h
    rfl
  | case2 u r hns ih =>
    rw [utf16Combine_cons_ns u r hns] at h
    rcases hrec : utf16Combine r with _ | s'
    · rw [hrec] at h; simp at h
    · rw [hrec] at h
      simp at h
      subst h
      have hub : u ≤ 65535 := hu u (by simp)
      have ihe := ih s' hrec (fun x hx => hu x (by simp [hx]))
      rw [utf16LEEncode, encodeAllFlat]
      have hec : utf16LEEncodeChar u = some [u % 256, u / 256] := by
        rw [utf16LEEncodeChar]
        rcases hns with hlt | hgt
        · rw [if_pos hlt]
        · rw [if_neg (by omega), if_neg (by omega), if_pos (by omega)]
      rw [hec]
      rw [utf16LEEncode] at ihe
      rw [ihe]
      simp
  | case3 u hns hhi u2 r2 hlow ih =>
    rw [utf16Combine_cons_pair u u2 r2 hns hhi hlow] at h
    rcases hrec : utf16Combine r2 with _ | s'
    · rw [hrec] at h; simp at h
    · rw [hrec] at h
      simp at h
      subst h
      have ihe := ih s' hrec (fun x hx => hu x (by simp [hx]))
      rw [utf16LEEncode, encodeAllFlat]
      have hec : utf16LEEncodeChar (65536 + (u - 55296) * 1024 + (u2 - 56320)) =
          some [u % 256, u / 256, u2 % 256, u2 / 256] := by
        rw [utf16LEEncodeChar]
        rw [if_neg (by omega), if_neg (by omega), if_neg (by omega), if_pos (by omega)]
        have e1 : (55296 + (65536 + (u - 55296) * 1024 + (u2 - 56320) - 65536) / 1024) % 256 =
            u % 256 := by omega
        have e2 : (55296 + (65536 + (u - 55296) * 1024 + (u2 - 56320) - 65536) / 1024) / 256 =
            u / 256 := by omega
        have e3 : (56320 + (65536 + (u - 55296) * 1024 + (u2 - 56320) - 65536) % 1024) % 256 =
            u2 % 256 := by omega
        have e4 : (56320 + (65536 + (u - 55296) * 1024 + (u2 - 56320) - 65536) % 1024) / 256 =
            u2 / 256 := by omega
        rw [e1, e2, e3, e4]
      rw [hec]
      rw [utf16LEEncode] at ihe
      rw [ihe]
      simp
  | case4 u hns hhi u2 r2 hlow =>
    rw [utf16Combine_cons_badpair u u2 r2 hns hhi hlow] at h
    simp at h
  | case5 u hns hhi =>
    rw [utf16Combine_lone_high u hns hhi] at h
    simp at h
  | case6 u r hns hhi =>
    rw [utf16Combine_low u r hns hhi] at h
    simp at h

theorem utf16LEUnits_cons2 (a b : Nat) (r : List Nat) :
    utf16LEUnits (a :: b :: r) = (utf16LEUnits r).map ((a + 256 * b) :: ·) := by
  rw [utf16LEUnits]

/-- Decode-then-encode identity for UTF-16-LE on genuine bytes. -/
theorem utf16LEEncode_utf16LEDecode (l s : List Nat) (h : utf16LEDecode l = some s)
    (hb : ∀ b ∈ l, b ≤ 255) : utf16LEEncode s = some l := by
  rw [utf16LEDecode] at h
  rcases hus : utf16LEUnits l with _ | us
  · rw [hus] at h; simp at h
  · rw [hus] at h
    simp at h
    obtain ⟨hflat, hbound⟩ := utf16LEUnits_flat l us hus hb
    rw [utf16Combine_encode us s h hbound, hflat]

theorem utf16LEDecode_single_bytes (c : Nat) (r : List Nat)
    (h : c < 55296 ∨ (57343 < c ∧ c ≤ 65535)) :
    utf16LEDecode ([c % 256, c / 256] ++ r) = (utf16LEDecode r).map (c :: ·) := by
  simp only [List.cons_append, List.nil_append]
  rw [utf16LEDecode, utf16LEDecode, utf16LEUnits_cons2]
  rcases hus : utf16LEUnits r with _ | us
  · simp
  · have hc : c % 256 + 256 * (c / 256) = c := by omega
    rw [hc]
    show utf16Combine (c :: us) = (utf16Combine us).map (c :: ·)
    exact utf16Combine_cons_ns c us (by omega)

theorem utf16LEDecode_pair_bytes (hi lo c : Nat) (r : List Nat)
    (hh : 55296 ≤ hi ∧ hi ≤ 56319) (hl : 56320 ≤ lo ∧ lo ≤ 57343)
    (hc : 65536 + (hi - 55296) * 1024 + (lo - 56320) = c) :
    utf16LEDecode ([hi % 256, hi / 256, lo % 256, lo / 256] ++ r) =
      (utf16LEDecode r).map (c :: ·) := by
  simp only [List.cons_append, List.nil_append]
  rw [utf16LEDecode, utf16LEDecode, utf16LEUnits_cons2, utf16LEUnits_cons2]
  rcases hus : utf16LEUnits r with _ | us
  · simp
  · have e1 : hi % 256 + 256 * (hi / 256) = hi := by omega
    have e2 : lo % 256 + 256 * (lo / 256) = lo := by omega
    rw [e1, e2]
    show utf16Combine (hi :: lo :: us) = (utf16Combine us).map (c :: ·)
    rw [utf16Combine_cons_pair hi lo us (by omega) (by omega) (by omega), hc]

/-- Decoding an encoded character at the head of a UTF-16-LE byte stream
recovers the character. -/
theorem utf16LEDecode_encodeChar (c : Nat) (bs r : List Nat)
    (h : utf16LEEncodeChar c = some bs) :
    utf16LEDecode (bs ++ r) = (utf16LEDecode r).map (c :: ·) := by
  rw [utf16LEEncodeChar] at h
  split_ifs at h with h1 h2 h3 h4
  · simp at h
    subst h
    exact utf16LEDecode_single_bytes c r (by omega)
  · simp at h
    subst h
    exact utf16LEDecode_single_bytes c r (by omega)
  · simp at h
    subst h
    exact utf16LEDecode_pair_bytes (55296 + (c - 65536) / 1024) (56320 + (c - 65536) % 1024) c r
      (by omega) (by omega) (by omega)

/-- Encode-then-decode identity for UTF-16-LE. -/
theorem utf16LEDecode_utf16LEEncode (s l : List Nat) (h : utf16LEEncode s = some l) :
    utf16LEDecode l = some s :=
  encodeAllFlat_decode utf16LEEncodeChar utf16LEDecode
    (by rw [utf16LEDecode, utf16LEUnits]; simp [utf16Combine])
    (fun c bs r hc => utf16LEDecode_encodeChar c bs r hc) s l h

/-- Every character produced by surrogate combination is a Unicode scalar
value. -/
theorem utf16Combine_scalar (us s : List Nat) (h : utf16Combine us = some s)
    (hu : ∀ u ∈ us, u ≤ 65535) :
    ∀ x ∈ s, x < 55296 ∨ (57343 < x ∧ x ≤ 1114111) := by
  induction us using utf16Combine.induct generalizing s with
  | case1 =>
    simp [utf16Combine] at h
    subst h
    simp
  | case2 u r hns ih =>
    rw [utf16Combine_cons_ns u r hns] at h
    rcases hrec : utf16Combine r with _ | s'
    · rw [hrec] at h; simp at h
    · rw [hrec] at h
      simp at h
      subst h
      intro x hx
      rcases List.mem_cons.mp hx with h1 | h2
      · have := hu u (by simp)
        omega
      · exact ih s' hrec (fun y hy => hu y (by simp [hy])) x h2
  | case3 u hns hhi u2 r2 hlow ih =>
    rw [utf16Combine_cons_pair u u2 r2 hns hhi hlow] at h
    rcases hrec : utf16Combine r2 with _ | s'
    · rw [hrec] at h; simp at h
    · rw [hrec] at h
      simp at h
      subst h
      intro x hx
      rcases List.mem_cons.mp hx with h1 | h2
      · omega
      · exact ih s' hrec (fun y hy => hu y (by simp [hy])) x h2
  | case4 u hns hhi u2 r2 hlow =>
    rw [utf16Combine_cons_badpair u u2 r2 hns hhi hlow] at h
    simp at h
  | case5 u hns hhi =>
    rw [utf16Combine_lone_high u hns hhi] at h
    simp at h
  | case6 u r hns hhi =>
    rw [utf16Combine_low u r hns hhi] at h
    simp at h

theorem utf16BEUnits_bound (l us : List Nat) (h : utf16BEUnits l = some us)
    (hb : ∀ b ∈ l, b ≤ 255) : ∀ u ∈ us, u ≤ 65535 := by
  induction l using utf16BEUnits.induct generalizing us with
  | case1 =>
    simp [utf16BEUnits] at h
    subst h
    simp
  | case2 b => simp [utf16BEUnits] at h
  | case3 hi lo r ih =>
    rw [utf16BEUnits] at h
    rcases hrec : utf16BEUnits r with _ | us'
    · rw [hrec] at h; simp at h
    · rw [hrec] at h
      simp at h
      subst h
      intro u hu
      rcases List.mem_cons.mp hu with h1 | h2
      · have := hb lo (by simp)
        have := hb hi (by simp)
        omega
      · exact ih us' hrec (fun b hbm => hb b (by simp [hbm])) u h2

/-! ## UTF-32 round trips -/

theorem utf32LEDecode_cons4 (b0 b1 b2 b3 : Nat) (r : List Nat)
    (h : b0 + 256 * b1 + 65536 * b2 + 16777216 * b3 ≤ 1114111 ∧
      ¬ (55296 ≤ b0 + 256 * b1 + 65536 * b2 + 16777216 * b3 ∧
         b0 + 256 * b1 + 65536 * b2 + 16777216 * b3 ≤ 57343)) :
    utf32LEDecode (b0 :: b1 :: b2 :: b3 :: r) =
      (utf32LEDecode r).map ((b0 + 256 * b1 + 65536 * b2 + 16777216 * b3) :: ·) := by
  rw [utf32LEDecode, if_pos h]

/-- Decode-then-encode identity for UTF-32-LE on genuine bytes. -/
theorem utf32LEEncode_utf32LEDecode (l s : List Nat) (h : utf32LEDecode l = some s)
    (hb : ∀ b ∈ l, b ≤ 255) : utf32LEEncode s = some l := by
  induction l using utf32LEDecode.induct generalizing s with
  | case1 =>
    simp [utf32LEDecode] at h
    subst h
    rfl
  | case2 b0 b1 b2 b3 r hok ih =>
    rw [utf32LEDecode_cons4 b0 b1 b2 b3 r hok] at h
    rcases hrec : utf32LEDecode r with _ | s'
    · rw [hrec] at h; simp at h
    · rw [hrec] at h
      simp at h
      subst h
      have hb0 : b0 ≤ 255 := hb b0 (by simp)
      have hb1 : b1 ≤ 255 := hb b1 (by simp)
      have hb2 : b2 ≤ 255 := hb b2 (by simp)
      have hb3 : b3 ≤ 255 := hb b3 (by simp)
      have ihe := ih s' hrec (fun x hx => hb x (by simp [hx]))
      rw [utf32LEEncode, encodeAllFlat]
      have hec : utf32LEEncodeChar (b0 + 256 * b1 + 65536 * b2 + 16777216 * b3) =
          some [b0, b1, b2, b3] := by
        rw [utf32LEEncodeChar, if_pos hok]
        have e0 : (b0 + 256 * b1 + 65536 * b2 + 16777216 * b3) % 256 = b0 := by omega
        have e1 : (b0 + 256 * b1 + 65536 * b2 + 16777216 * b3) / 256 % 256 = b1 := by omega
        have e2 : (b0 + 256 * b1 + 65536 * b2 + 16777216 * b3) / 65536 % 256 = b2 := by omega
        have e3 : (b0 + 256 * b1 + 65536 * b2 + 16777216 * b3) / 16777216 = b3 := by omega
        rw [e0, e1, e2, e3]
      rw [hec]
      rw [utf32LEEncode] at ihe
      rw [ihe]
      simp
  | case3 b0 b1 b2 b3 r hbad =>
    rw [utf32LEDecode, if_neg hbad] at h
    simp at h
  | case4 l h1 h2 =>
    rw [utf32LEDecode] at h
    · simp at h
    · exact h1
    · exact h2

/-- Decoding an encoded character at the head of a UTF-32-LE byte stream
recovers the character. -/
theorem utf32LEDecode_encodeChar (c : Nat) (bs r : List Nat)
    (h : utf32LEEncodeChar c = some bs) :
    utf32LEDecode (bs ++ r) = (utf32LEDecode r).map (c :: ·) := by
  rw [utf32LEEncodeChar] at h
  split_ifs at h with h1
  · simp at h
    subst h
    simp only [List.cons_append, List.nil_append]
    have hv : c % 256 + 256 * (c / 256 % 256) + 65536 * (c / 65536 % 256) +
        16777216 * (c / 16777216) = c := by omega
    rw [utf32LEDecode_cons4 _ _ _ _ r (by omega), hv]

/-- Encode-then-decode identity for UTF-32-LE. -/
theorem utf32LEDecode_utf32LEEncode (s l : List Nat) (h : utf32LEEncode s = some l) :
    utf32LEDecode l = some s :=
  encodeAllFlat_decode utf32LEEncodeChar utf32LEDecode (by rw [utf32LEDecode])
    (fun c bs r hc => utf32LEDecode_encodeChar c bs r hc) s l h

/-- Every character produced by UTF-32 decoding is a Unicode scalar value. -/
theorem utf32LEDecode_scalar (l s : List Nat) (h : utf32LEDecode l = some s) :
    ∀ x ∈ s, x < 55296 ∨ (57343 < x ∧ x ≤ 1114111) := by
  induction l using utf32LEDecode.induct generalizing s with
  | case1 =>
    simp [utf32LEDecode] at h
    subst h
    simp
  | case2 b0 b1 b2 b3 r hok ih =>
    rw [utf32LEDecode_cons4 b0 b1 b2 b3 r hok] at h
    rcases hrec : utf32LEDecode r with _ | s'
    · rw [hrec] at h; simp at h
    · rw [hrec] at h
      simp at h
      subst h
      intro x hx
      rcases List.mem_cons.mp hx with h1 | h2
      · omega
      · exact ih s' hrec x h2
  | case3 b0 b1 b2 b3 r hbad =>
    rw [utf32LEDecode, if_neg hbad] at h
    simp at h
  | case4 l h1 h2 =>
    rw [utf32LEDecode] at h
    · simp at h
    · exact h1
    · exact h2

theorem utf32BEDecode_scalar (l s : List Nat) (h : utf32BEDecode l = some s) :
    ∀ x ∈ s, x < 55296 ∨ (57343 < x ∧ x ≤ 1114111) := by
  induction l using utf32BEDecode.induct generalizing s with
  | case1 =>
    simp [utf32BEDecode] at h
    subst h
    simp
  | case2 b3 b2 b1 b0 r hok ih =>
    rw [utf32BEDecode, if_pos hok] at h
    rcases hrec : utf32BEDecode r with _ | s'
    · rw [hrec] at h; simp at h
    · rw [hrec] at h
      simp at h
      subst h
      intro x hx
      rcases List.mem_cons.mp hx with h1 | h2
      · omega
      · exact ih s' hrec x h2
  | case3 b3 b2 b1 b0 r hbad =>
    rw [utf32BEDecode, if_neg hbad] at h
    simp at h
  | case4 l h1 h2 =>
    rw [utf32BEDecode] at h
    · simp at h
    · exact h1
    · exact h2

/-! ## cp1252 and latin-1 round trips -/

theorem cp1252DecodeByte_encode (b c : Nat) (h : cp1252DecodeByte b = some c) :
    cp1252EncodeByte c = some b := by
  rw [cp1252DecodeByte.eq_def] at h
  split_ifs at h with h1 h2
  · simp at h
    subst h
    rw [cp1252EncodeByte.eq_def, if_pos h1]
  · simp at h
    subst h
    rw [cp1252EncodeByte.eq_def, if_neg (by omega), if_pos h2]
  · split at h <;>
      first
        | (simp only [Option.some.injEq] at h; subst h; decide)
        | simp at h

theorem cp1252EncodeByte_decode (c b : Nat) (h : cp1252EncodeByte c = some b) :
    cp1252DecodeByte b = some c := by
  rw [cp1252EncodeByte.eq_def] at h
  split_ifs at h with h1 h2
  · simp at h
    subst h
    rw [cp1252DecodeByte.eq_def, if_pos h1]
  · simp at h
    subst h
    rw [cp1252DecodeByte.eq_def, if_neg (by omega), if_pos h2]
  · split at h <;>
      first
        | (simp only [Option.some.injEq] at h; subst h; decide)
        | simp at h

/-- cp1252 never decodes a byte to U+FEFF or to any line-break character
beyond `\n`, `\r`, VT, FF, FS, GS, RS, NEL (all below 256); its largest
target is U+2122. -/
theorem cp1252DecodeByte_le (b c : Nat) (h : cp1252DecodeByte b = some c) : c ≤ 8482 := by
  rw [cp1252DecodeByte.eq_def] at h
  split_ifs at h with h1 h2
  · simp at h; omega
  · simp at h; omega
  · split at h <;>
      first
        | (simp only [Option.some.injEq] at h; subst h; decide)
        | simp at h

theorem latin1DecodeByte_encode (b c : Nat) (h : latin1DecodeByte b = some c) :
    latin1EncodeByte c = some b := by
  rw [latin1DecodeByte] at h
  split_ifs at h with h1
  · simp at h
    subst h
    rw [latin1EncodeByte, if_pos h1]

theorem latin1EncodeByte_decode (c b : Nat) (h : latin1EncodeByte c = some b) :
    latin1DecodeByte b = some c := by
  rw [latin1EncodeByte] at h
  split_ifs at h with h1
  · simp at h
    subst h
    rw [latin1DecodeByte, if_pos h1]

theorem cp1252Encode_cp1252Decode (l s : List Nat) (h : cp1252Decode l = some s) :
    cp1252Encode s = some l :=
  mapAllBytes_roundtrip cp1252DecodeByte cp1252EncodeByte cp1252DecodeByte_encode l s h

theorem cp1252Decode_cp1252Encode (s l : List Nat) (h : cp1252Encode s = some l) :
    cp1252Decode l = some s :=
  mapAllBytes_roundtrip cp1252EncodeByte cp1252DecodeByte cp1252EncodeByte_decode s l h

theorem latin1Encode_latin1Decode (l s : List Nat) (h : latin1Decode l = some s) :
    latin1Encode s = some l :=
  mapAllBytes_roundtrip latin1DecodeByte latin1EncodeByte latin1DecodeByte_encode l s h

theorem latin1Decode_latin1Encode (s l : List Nat) (h : latin1Encode s = some l) :
    latin1Decode l = some s :=
  mapAllBytes_roundtrip latin1EncodeByte latin1DecodeByte latin1EncodeByte_decode s l h

/-! ## Read/write pipeline lemmas -/

theorem isPrefixOf_eq_append (p l : List Nat) (h : List.isPrefixOf p l = true) :
    l = p ++ l.drop p.length := by
  rw [List.isPrefixOf_iff_prefix] at h
  obtain ⟨t, ht⟩ := h
  rw [← ht, List.drop_left]

theorem isPrefixOf_append_self (a b : List Nat) : List.isPrefixOf a (a ++ b) = true := by
  rw [List.isPrefixOf_iff_prefix]
  exact List.prefix_append a b

theorem detect_none_facts (raw : List Nat) (h : detect_encoding raw = none) :
    List.isPrefixOf [255, 254, 0, 0] raw = false ∧
    List.isPrefixOf [0, 0, 254, 255] raw = false ∧
    List.isPrefixOf [255, 254] raw = false ∧
    List.isPrefixOf [254, 255] raw = false ∧
    List.isPrefixOf [239, 187, 191] raw = false := by
  rw [detect_encoding] at h
  split_ifs at h with h1 h2 h3 h4 h5
  exact ⟨by simp [h1], by simp [h2], by simp [h3], by simp [h4], by simp [h5]⟩

theorem mapAllBytes_head (f : Nat → Option Nat) (b : Nat) (r : List Nat) (c : Nat)
    (t : List Nat) (h : mapAllBytes f (b :: r) = some (c :: t)) : f b = some c := by
  rw [mapAllBytes] at h
  rcases hfb : f b with _ | c'
  · rw [hfb] at h; simp at h
  · rw [hfb] at h
    rcases hrec : mapAllBytes f r with _ | t'
    · rw [hrec] at h; simp at h
    · rw [hrec] at h
      simp at h
      rw [h.1]

/-- If strict UTF-8 decoding yields text starting with U+FEFF, the bytes
start with the UTF-8 byte-order marker (so the fallback path, which only
runs when no marker was detected, never produces a leading U+FEFF). -/
theorem utf8Decode_head_feff (raw t : List Nat) (h : utf8Decode raw = some (65279 :: t)) :
    List.isPrefixOf [239, 187, 191] raw = true := by
  have henc := utf8Encode_utf8Decode raw (65279 :: t) h
  rw [utf8Encode, encodeAllFlat] at henc
  have hch : utf8EncodeChar 65279 = some [239, 187, 191] := by decide
  rw [hch] at henc
  rcases hrec : encodeAllFlat utf8EncodeChar t with _ | l'
  · rw [hrec] at henc; simp at henc
  · rw [hrec] at henc
    simp at henc
    rw [← henc]
    exact isPrefixOf_append_self [239, 187, 191] l'

theorem mem_splitlines_mem (c : List Nat) (l : List Nat) (x : Nat)
    (hl : l ∈ splitlinesKeepends c) (hx : x ∈ l) : x ∈ c := by
  have hj := joinLines_splitlines c
  rw [← hj]
  rw [joinLines]
  exact List.mem_flatten.mpr ⟨l, hl, hx⟩

theorem mem_joinLines (ls : List (List Nat)) (x : Nat) (h : x ∈ joinLines ls) :
    ∃ l ∈ ls, x ∈ l := by
  rw [joinLines] at h
  exact List.mem_flatten.mp h

theorem mem_joinLines_of_mem (ls : List (List Nat)) (l : List Nat) (x : Nat)
    (hl : l ∈ ls) (hx : x ∈ l) : x ∈ joinLines ls := by
  rw [joinLines]
  exact List.mem_flatten.mpr ⟨l, hl, hx⟩

theorem splitOnNL_ne_nil (raw : List Nat) : splitOnNL raw ≠ [] := by
  rcases raw with _ | ⟨c, r⟩
  · simp [splitOnNL]
  · rw [splitOnNL]
    split_ifs
    · simp
    · rcases splitOnNL r with _ | _
      · simp
      · simp

theorem parse_content_ne_nil (cs : Option (List Nat)) (us : Bool) (sd : List Nat)
    (L : List (List Nat)) (h : parse_content cs us sd = some L) : L ≠ [] := by
  rw [parse_content] at h
  rcases hraw : (if us then some sd else cs.map expandEscapes) with _ | raw
  · rw [hraw] at h; simp at h
  · rw [hraw] at h
    simp only [] at h
    split_ifs at h with hcond
    · simp at h
      subst h
      intro hcon
      have hlen := hcond.2.1
      have h2 := congrArg List.length hcon
      rw [List.length_dropLast] at h2
      simp only [List.length_nil] at h2
      omega
    · simp at h
      subst h
      intro hcon
      simp at hcon
      exact splitOnNL_ne_nil raw hcon

theorem detect_some_cases (raw : List Nat) (e : EncTag) (h : detect_encoding raw = some e) :
    e = .utf32 ∨ e = .utf16 ∨ e = .utf8sig := by
  rw [detect_encoding] at h
  split_ifs at h <;> simp_all

theorem latin1Decode_total (raw : List Nat) (hb : ∀ b ∈ raw, b ≤ 255) :
    latin1Decode raw = some raw := by
  induction raw with
  | nil => rfl
  | cons b r ih =>
    rw [latin1Decode, mapAllBytes]
    have hb0 : latin1DecodeByte b = some b := by
      rw [latin1DecodeByte, if_pos (hb b (by simp))]
    rw [hb0]
    have := ih (fun x hx => hb x (by simp [hx]))
    rw [latin1Decode] at this
    rw [this]
    rfl

/-- On the no-marker fallback path, reading and then writing back with the
detected tag reproduces the bytes exactly. -/
theorem read_fallback_roundtrip (raw c : List Nat) (enc : EncTag) (u : Bool)
    (hb : ∀ b ∈ raw, b ≤ 255)
    (hdet : detect_encoding raw = none)
    (h : read_with_encoding raw = some (c, enc, u)) :
    pyEncodeTag enc c = some raw := by
  rw [read_with_encoding.eq_def, hdet] at h
  have h' : (match utf8Decode raw with
    | some c => some (stripLeadingBOMChar c, EncTag.utf8, false)
    | none =>
      match cp1252Decode raw with
      | some c => some (stripLeadingBOMChar c, EncTag.cp1252, false)
      | none =>
        match latin1Decode raw with
        | some c => some (stripLeadingBOMChar c, EncTag.latin1, false)
        | none => some (stripLeadingBOMChar (latin1ReplaceDecode raw), EncTag.latin1, true)) =
      some (c, enc, u) := h
  rcases h8 : utf8Decode raw with _ | c'
  · rw [h8] at h'
    rcases h12 : cp1252Decode raw with _ | c'
    · rw [h12] at h'
      rw [latin1Decode_total raw hb] at h'
      simp at h'
      obtain ⟨hc, henc, hu⟩ := h'
      have hstrip : stripLeadingBOMChar raw = raw := by
        apply stripLeadingBOMChar_eq_self
        rcases raw with _ | ⟨b0, r⟩
        · simp
        · have := hb b0 (by simp)
          simp
          omega
      rw [hstrip] at hc
      rw [← henc, ← hc]
      exact latin1Decode_total raw hb
    · rw [h12] at h'
      simp at h'
      obtain ⟨hc, henc, hu⟩ := h'
      have hstrip : stripLeadingBOMChar c' = c' := by
        apply stripLeadingBOMChar_eq_self
        rcases hc' : c' with _ | ⟨c0, t⟩
        · simp
        · rcases raw with _ | ⟨b0, r⟩
          · rw [cp1252Decode] at h12
            simp [mapAllBytes] at h12
            rw [h12] at hc'
            simp at hc'
          · rw [hc'] at h12
            have := cp1252DecodeByte_le b0 c0 (mapAllBytes_head cp1252DecodeByte b0 r c0 t h12)
            simp
            omega
      rw [hstrip] at hc
      rw [← henc, ← hc]
      show cp1252Encode c' = some raw
      exact cp1252Encode_cp1252Decode raw c' h12
  · rw [h8] at h'
    simp at h'
    obtain ⟨hc, henc, hu⟩ := h'
    have hstrip : stripLeadingBOMChar c' = c' := by
      apply stripLeadingBOMChar_eq_self
      rcases hc' : c' with _ | ⟨c0, t⟩
      · simp
      · by_cases hfe : c0 = 65279
        · subst hfe
          rw [hc'] at h8
          have := utf8Decode_head_feff raw t h8
          have hd := detect_none_facts raw hdet
          rw [this] at hd
          simp at hd
        · simp [hfe]
    rw [hstrip] at hc
    rw [← henc, ← hc]
    show utf8Encode c' = some raw
    exact utf8Encode_utf8Decode raw c' h8

/-- On the byte-order-marker path, reading and then writing back with the
detected tag reproduces the bytes exactly, provided the marker is a
little-endian (or UTF-8) one, the decoded text contains no carriage return
(text-mode reading translates those), and the text after the marker does not
itself begin with U+FEFF (which the reader strips). -/
theorem read_bom_roundtrip (raw c pre : List Nat) (enc : EncTag) (u : Bool)
    (hb : ∀ b ∈ raw, b ≤ 255)
    (hdet : detect_encoding raw = some enc)
    (hpre : pyDecodeTag enc raw = some pre)
    (hcr : 13 ∉ pre) (hfeff : pre.head? ≠ some 65279)
    (h : read_with_encoding raw = some (c, enc, u))
    (hnotbe16 : List.isPrefixOf [254, 255] raw = false)
    (hnotbe32 : List.isPrefixOf [0, 0, 254, 255] raw = false) :
    pyEncodeTag enc c = some raw := by
  rw [read_with_encoding.eq_def, hdet] at h
  have h' : (match pyDecodeTag enc raw with
    | none => none
    | some content => some (stripLeadingBOMChar (univNewlines content), enc, false)) =
      some (c, enc, u) := h
  rw [hpre] at h'
  simp at h'
  obtain ⟨hc, hu⟩ := h'
  rw [univNewlines_eq_self pre hcr] at hc
  rw [stripLeadingBOMChar_eq_self pre hfeff] at hc
  subst hc
  rw [detect_encoding] at hdet
  split_ifs at hdet with d1 d2 d3 d4 d5
  · -- UTF-32 little-endian marker
    simp at hdet
    subst hdet
    rw [pyDecodeTag, pyUtf32Decode, if_pos d1] at hpre
    have hraw : raw = [255, 254, 0, 0] ++ raw.drop 4 := by
      simpa using isPrefixOf_eq_append [255, 254, 0, 0] raw d1
    have henc := utf32LEEncode_utf32LEDecode (raw.drop 4) pre hpre
      (fun b hbm => hb b (List.mem_of_mem_drop hbm))
    rw [pyEncodeTag, henc]
    show some ([255, 254, 0, 0] ++ raw.drop 4) = some raw
    rw [← hraw]
  · -- UTF-32 big-endian marker: excluded
    rw [d2] at hnotbe32
    simp at hnotbe32
  · -- UTF-16 little-endian marker
    simp at hdet
    subst hdet
    rw [pyDecodeTag, pyUtf16Decode, if_pos d3] at hpre
    have hraw : raw = [255, 254] ++ raw.drop 2 := by
      simpa using isPrefixOf_eq_append [255, 254] raw d3
    have henc := utf16LEEncode_utf16LEDecode (raw.drop 2) pre hpre
      (fun b hbm => hb b (List.mem_of_mem_drop hbm))
    rw [pyEncodeTag, henc]
    show some ([255, 254] ++ raw.drop 2) = some raw
    rw [← hraw]
  · -- UTF-16 big-endian marker: excluded
    rw [d4] at hnotbe16
    simp at hnotbe16
  · -- UTF-8 marker
    simp at hdet
    subst hdet
    rw [pyDecodeTag, pyUtf8SigDecode, if_pos d5] at hpre
    have hraw : raw = [239, 187, 191] ++ raw.drop 3 := by
      simpa using isPrefixOf_eq_append [239, 187, 191] raw d5
    have henc := utf8Encode_utf8Decode (raw.drop 3) pre hpre
    rw [pyEncodeTag, henc]
    show some ([239, 187, 191] ++ raw.drop 3) = some raw
    rw [← hraw]

/-- Reading back a file just written with tag `enc` recovers the written
text, provided the re-read detects the same tag, the text contains no
carriage return when the tag carries a byte-order marker, and the text does
not begin with U+FEFF. -/
theorem write_read_content (content raw2 c3 : List Nat) (enc : EncTag) (u : Bool)
    (henc : pyEncodeTag enc content = some raw2)
    (hread : read_with_encoding raw2 = some (c3, enc, u))
    (hcr : (enc = .utf32 ∨ enc = .utf16 ∨ enc = .utf8sig) → 13 ∉ content)
    (hfeff : content.head? ≠ some 65279) :
    c3 = content := by
  rw [read_with_encoding.eq_def] at hread
  rcases hdet : detect_encoding raw2 with _ | e
  · rw [hdet] at hread
    have h' : (match utf8Decode raw2 with
      | some c => some (stripLeadingBOMChar c, EncTag.utf8, false)
      | none =>
        match cp1252Decode raw2 with
        | some c => some (stripLeadingBOMChar c, EncTag.cp1252, false)
        | none =>
          match latin1Decode raw2 with
          | some c => some (stripLeadingBOMChar c, EncTag.latin1, false)
          | none => some (stripLeadingBOMChar (latin1ReplaceDecode raw2), EncTag.latin1, true)) =
        some (c3, enc, u) := hread
    rcases enc with _ | _ | _ | _ | _ | _
    · -- utf32 cannot come from the fallback path
      rcases h8 : utf8Decode raw2 with _ | c'
      · rw [h8] at h'
        rcases h12 : cp1252Decode raw2 with _ | c'
        · rw [h12] at h'
          rcases hl1 : latin1Decode raw2 with _ | c'
          · rw [hl1] at h'; simp at h'
          · rw [hl1] at h'; simp at h'
        · rw [h12] at h'; simp at h'
      · rw [h8] at h'; simp at h'
    · -- utf16 cannot come from the fallback path
      rcases h8 : utf8Decode raw2 with _ | c'
      · rw [h8] at h'
        rcases h12 : cp1252Decode raw2 with _ | c'
        · rw [h12] at h'
          rcases hl1 : latin1Decode raw2 with _ | c'
          · rw [hl1] at h'; simp at h'
          · rw [hl1] at h'; simp at h'
        · rw [h12] at h'; simp at h'
      · rw [h8] at h'; simp at h'
    · -- utf8sig cannot come from the fallback path
      rcases h8 : utf8Decode raw2 with _ | c'
      · rw [h8] at h'
        rcases h12 : cp1252Decode raw2 with _ | c'
        · rw [h12] at h'
          rcases hl1 : latin1Decode raw2 with _ | c'
          · rw [hl1] at h'; simp at h'
          · rw [hl1] at h'; simp at h'
        · rw [h12] at h'; simp at h'
      · rw [h8] at h'; simp at h'
    · -- utf8: strict utf-8 decoding of the written bytes succeeds
      have hdec : utf8Decode raw2 = some content := utf8Decode_utf8Encode content raw2 henc
      rw [hdec] at h'
      simp at h'
      rw [← h'.1, stripLeadingBOMChar_eq_self content hfeff]
    · -- cp1252
      rcases h8 : utf8Decode raw2 with _ | c'
      · rw [h8] at h'
        have hdec : cp1252Decode raw2 = some content :=
          cp1252Decode_cp1252Encode content raw2 henc
        rw [hdec] at h'
        simp at h'
        rw [← h'.1, stripLeadingBOMChar_eq_self content hfeff]
      · rw [h8] at h'; simp at h'
    · -- latin1
      rcases h8 : utf8Decode raw2 with _ | c'
      · rw [h8] at h'
        rcases h12 : cp1252Decode raw2 with _ | c'
        · rw [h12] at h'
          have hdec : latin1Decode raw2 = some content :=
            latin1Decode_latin1Encode content raw2 henc
          rw [hdec] at h'
          simp at h'
          rw [← h'.1, stripLeadingBOMChar_eq_self content hfeff]
        · rw [h12] at h'; simp at h'
      · rw [h8] at h'; simp at h'
  · rw [hdet] at hread
    have h' : (match pyDecodeTag e raw2 with
      | none => none
      | some content => some (stripLeadingBOMChar (univNewlines content), e, false)) =
        some (c3, enc, u) := hread
    rcases hpd : pyDecodeTag e raw2 with _ | pre
    · rw [hpd] at h'; simp at h'
    · rw [hpd] at h'
      simp at h'
      obtain ⟨hc3, he, hu⟩ := h'
      subst he
      have hcr2 : 13 ∉ content := by
        apply hcr
        exact (detect_some_cases raw2 e hdet).elim Or.inl
          (fun h2 => h2.elim (Or.inr ∘ Or.inl) (Or.inr ∘ Or.inr))
      have hpre : pre = content := by
        rcases e with _ | _ | _ | _ | _ | _
        · -- utf32: the written bytes start with the LE marker
          rw [pyEncodeTag] at henc
          rcases hbody : utf32LEEncode content with _ | body
          · rw [hbody] at henc; simp at henc
          · rw [hbody] at henc
            simp at henc
            rw [pyDecodeTag, pyUtf32Decode, ← henc] at hpd
            have hpf : List.isPrefixOf [255, 254, 0, 0] (255 :: 254 :: 0 :: 0 :: body) = true :=
              isPrefixOf_append_self [255, 254, 0, 0] body
            rw [hpf, if_pos rfl] at hpd
            have hdrop : List.drop 4 (255 :: 254 :: 0 :: 0 :: body) = body := rfl
            rw [hdrop] at hpd
            have := utf32LEDecode_utf32LEEncode content body hbody
            rw [this] at hpd
            simp at hpd
            exact hpd.symm
        · -- utf16
          rw [pyEncodeTag] at henc
          rcases hbody : utf16LEEncode content with _ | body
          · rw [hbody] at henc; simp at henc
          · rw [hbody] at henc
            simp at henc
            rw [pyDecodeTag, pyUtf16Decode, ← henc] at hpd
            have hpf : List.isPrefixOf [255, 254] (255 :: 254 :: body) = true :=
              isPrefixOf_append_self [255, 254] body
            rw [hpf, if_pos rfl] at hpd
            have hdrop : List.drop 2 (255 :: 254 :: body) = body := rfl
            rw [hdrop] at hpd
            have := utf16LEDecode_utf16LEEncode content body hbody
            rw [this] at hpd
            simp at hpd
            exact hpd.symm
        · -- utf8sig
          rw [pyEncodeTag] at henc
          rcases hbody : utf8Encode content with _ | body
          · rw [hbody] at henc; simp at henc
          · rw [hbody] at henc
            simp at henc
            rw [pyDecodeTag, pyUtf8SigDecode, ← henc] at hpd
            have hpf : List.isPrefixOf [239, 187, 191] (239 :: 187 :: 191 :: body) = true :=
              isPrefixOf_append_self [239, 187, 191] body
            rw [hpf, if_pos rfl] at hpd
            have hdrop : List.drop 3 (239 :: 187 :: 191 :: body) = body := rfl
            rw [hdrop] at hpd
            have := utf8Decode_utf8Encode content body hbody
            rw [this] at hpd
            simp at hpd
            exact hpd.symm
        · -- utf8 cannot be detected from a marker
          rcases detect_some_cases raw2 _ hdet with h1 | h1 | h1 <;> simp at h1
        · rcases detect_some_cases raw2 _ hdet with h1 | h1 | h1 <;> simp at h1
        · rcases detect_some_cases raw2 _ hdet with h1 | h1 | h1 <;> simp at h1
      subst hpre
      rw [univNewlines_eq_self pre hcr2, stripLeadingBOMChar_eq_self pre hfeff] at hc3
      exact hc3.symm

theorem read_lines_inv (raw : List Nat) (lines : List (List Nat)) (enc : EncTag) (u : Bool)
    (h : read_lines_with_encoding raw = some (lines, enc, u)) :
    ∃ c, read_with_encoding raw = some (c, enc, u) ∧ lines = splitlinesKeepends c := by
  rw [read_lines_with_encoding] at h
  rcases hr : read_with_encoding raw with _ | ⟨c, e, v⟩
  · rw [hr] at h; simp at h
  · rw [hr] at h
    simp at h
    obtain ⟨h1, h2, h3⟩ := h
    exact ⟨c, by rw [h2, h3], h1.symm⟩

/-! ## Claim C5 -/

/-- C5, counterexample: the byte-exact round trip fails as universally
stated. A UTF-16 big-endian file is rewritten little-endian, and a UTF-8
marker file containing `\r\n` is rewritten with `\n` because the marker
branch reads the file in text mode with universal-newline translation. -/
theorem C5_counterexample :
    (read_lines_with_encoding [254, 255, 0, 97] = some ([[97]], .utf16, false) ∧
     write_lines_with_encoding [[97]] .utf16 = some [255, 254, 97, 0] ∧
     ([255, 254, 97, 0] : List Nat) ≠ [254, 255, 0, 97]) ∧
    (read_lines_with_encoding [239, 187, 191, 97, 13, 10] =
       some ([[97, 10]], .utf8sig, false) ∧
     write_lines_with_encoding [[97, 10]] .utf8sig = some [239, 187, 191, 97, 10] ∧
     ([239, 187, 191, 97, 10] : List Nat) ≠ [239, 187, 191, 97, 13, 10]) := by
  refine ⟨⟨?_, ?_, by decide⟩, ⟨?_, ?_, by decide⟩⟩
  · simp [read_lines_with_encoding, read_with_encoding, detect_encoding, pyDecodeTag,
      pyUtf16Decode, utf16BEDecode, utf16BEUnits, utf16Combine, stripLeadingBOMChar,
      univNewlines, splitlinesKeepends, isBreakChar]
  · simp [write_lines_with_encoding, pyEncodeTag, joinLines, utf16LEEncode, encodeAllFlat,
      utf16LEEncodeChar]
  · simp [read_lines_with_encoding, read_with_encoding, detect_encoding, pyDecodeTag,
      pyUtf8SigDecode, utf8Decode, utf8DecodeOne, stripLeadingBOMChar, univNewlines,
      splitlinesKeepends, isBreakChar]
  · simp [write_lines_with_encoding, pyEncodeTag, joinLines, utf8Encode, encodeAllFlat,
      utf8EncodeChar]

/-- C5 (amended): reading a file's lines with their detected tag and writing
them straight back reproduces the original bytes exactly, for every
no-marker (fallback) file unconditionally, and for every marker file whose
marker is little-endian (or the UTF-8 marker), whose decoded text contains
no carriage return, and whose text after the marker does not itself begin
with U+FEFF. Big-endian files are rewritten little-endian, text-mode reading
translates `\r\n`/`\r` to `\n`, and a second U+FEFF is stripped, so those
cases are excluded. -/
theorem C5_roundtrip (raw : List Nat) (hb : ∀ b ∈ raw, b ≤ 255) :
    (∀ lines enc u, detect_encoding raw = none →
      read_lines_with_encoding raw = some (lines, enc, u) →
      write_lines_with_encoding lines enc = some raw) ∧
    (∀ lines enc u pre, detect_encoding raw = some enc →
      pyDecodeTag enc raw = some pre → 13 ∉ pre → pre.head? ≠ some 65279 →
      List.isPrefixOf [254, 255] raw = false →
      List.isPrefixOf [0, 0, 254, 255] raw = false →
      read_lines_with_encoding raw = some (lines, enc, u) →
      write_lines_with_encoding lines enc = some raw) := by
  constructor
  · intro lines enc u hdet h
    obtain ⟨c, hr, hl⟩ := read_lines_inv raw lines enc u h
    rw [write_lines_with_encoding, hl, joinLines_splitlines]
    exact read_fallback_roundtrip raw c enc u hb hdet hr
  · intro lines enc u pre hdet hpre hcr hfeff hbe16 hbe32 h
    obtain ⟨c, hr, hl⟩ := read_lines_inv raw lines enc u h
    rw [write_lines_with_encoding, hl, joinLines_splitlines]
    exact read_bom_roundtrip raw c pre enc u hb hdet hpre hcr hfeff hr hbe16 hbe32

/-- C5, witness: concrete round trips through the theorem, for a UTF-16
little-endian file and a plain UTF-8 file. -/
theorem C5_witness :
    write_lines_with_encoding [[97]] EncTag.utf16 = some [255, 254, 97, 0] ∧
    write_lines_with_encoding [[104, 105]] EncTag.utf8 = some [104, 105] := by
  constructor
  · apply (C5_roundtrip [255, 254, 97, 0] (by decide)).2 [[97]] EncTag.utf16 false [97]
    · decide
    · decide
    · decide
    · decide
    · decide
    · decide
    · simp [read_lines_with_encoding, read_with_encoding, detect_encoding, pyDecodeTag,
        pyUtf16Decode, utf16LEDecode, utf16LEUnits, utf16Combine, stripLeadingBOMChar,
        univNewlines, splitlinesKeepends, isBreakChar]
  · apply (C5_roundtrip [104, 105] (by decide)).1 [[104, 105]] EncTag.utf8 false
    · decide
    · simp [read_lines_with_encoding, read_with_encoding, detect_encoding, utf8Decode,
        utf8DecodeOne, stripLeadingBOMChar, splitlinesKeepends, isBreakChar]

/-! ## Claim C10 -/

/-- C10, counterexample: reading CAN fail. A UTF-16 byte-order marker
followed by a single odd byte is detected as `utf-16`, and the strict
decode of the truncated stream raises, so `read_lines_with_encoding`
propagates a decoding error. -/
theorem C10_counterexample : read_lines_with_encoding [255, 254, 97] = none := by
  simp [read_lines_with_encoding, read_with_encoding, detect_encoding, pyDecodeTag,
    pyUtf16Decode, utf16LEDecode, utf16LEUnits]

/-- C10 (amended): when no byte-order marker matches, reading never fails —
the ordered fallback loop succeeds no later than the strict latin-1 entry,
which accepts every byte string — and the returned tag is one of `utf-8`,
`cp1252`, `latin-1`; moreover the final permissive replacement-character
branch is unreachable for genuine file bytes on every path (the flag in the
result records whether it was taken). When a byte-order marker matches,
however, the strict decode under the marker codec can fail, so
`read_lines_with_encoding` can raise (see the counterexample). -/
theorem C10_fallback_total (raw : List Nat) (hb : ∀ b ∈ raw, b ≤ 255) :
    (detect_encoding raw = none →
      ∃ lines enc, read_lines_with_encoding raw = some (lines, enc, false) ∧
        (enc = .utf8 ∨ enc = .cp1252 ∨ enc = .latin1)) ∧
    (∀ c e v, read_with_encoding raw = some (c, e, v) → v = false) := by
  have hkey : ∀ c e v, read_with_encoding raw = some (c, e, v) →
      v = false ∧ (detect_encoding raw = none → (e = .utf8 ∨ e = .cp1252 ∨ e = .latin1)) := by
    intro c e v h
    rw [read_with_encoding.eq_def] at h
    rcases hdet : detect_encoding raw with _ | enc
    · rw [hdet] at h
      have h' : (match utf8Decode raw with
        | some c => some (stripLeadingBOMChar c, EncTag.utf8, false)
        | none =>
          match cp1252Decode raw with
          | some c => some (stripLeadingBOMChar c, EncTag.cp1252, false)
          | none =>
            match latin1Decode raw with
            | some c => some (stripLeadingBOMChar c, EncTag.latin1, false)
            | none =>
              some (stripLeadingBOMChar (latin1ReplaceDecode raw), EncTag.latin1, true)) =
          some (c, e, v) := h
      rcases h8 : utf8Decode raw with _ | c'
      · rw [h8] at h'
        rcases h12 : cp1252Decode raw with _ | c'
        · rw [h12] at h'
          rw [latin1Decode_total raw hb] at h'
          simp at h'
          exact ⟨h'.2.2, fun _ => Or.inr (Or.inr h'.2.1.symm)⟩
        · rw [h12] at h'
          simp at h'
          exact ⟨h'.2.2, fun _ => Or.inr (Or.inl h'.2.1.symm)⟩
      · rw [h8] at h'
        simp at h'
        exact ⟨h'.2.2, fun _ => Or.inl h'.2.1.symm⟩
    · rw [hdet] at h
      have h' : (match pyDecodeTag enc raw with
        | none => none
        | some content =>
          some (stripLeadingBOMChar (univNewlines content), enc, false)) = some (c, e, v) := h
      rcases hpd : pyDecodeTag enc raw with _ | pre
      · rw [hpd] at h'; simp at h'
      · rw [hpd] at h'
        simp at h'
        exact ⟨h'.2.2, fun hcon => Option.noConfusion hcon⟩
  constructor
  · intro hdet
    rcases h8 : utf8Decode raw with _ | c'
    · rcases h12 : cp1252Decode raw with _ | c'
      · refine ⟨splitlinesKeepends (stripLeadingBOMChar raw), .latin1, ?_, Or.inr (Or.inr rfl)⟩
        rw [read_lines_with_encoding, read_with_encoding.eq_def, hdet, h8, h12,
          latin1Decode_total raw hb]
        rfl
      · refine ⟨splitlinesKeepends (stripLeadingBOMChar c'), .cp1252, ?_,
          Or.inr (Or.inl rfl)⟩
        rw [read_lines_with_encoding, read_with_encoding.eq_def, hdet, h8, h12]
        rfl
    · refine ⟨splitlinesKeepends (stripLeadingBOMChar c'), .utf8, ?_, Or.inl rfl⟩
      rw [read_lines_with_encoding, read_with_encoding.eq_def, hdet, h8]
      rfl
  · intro c e v h
    exact (hkey c e v h).1

/-! ## Encodability of read content -/

theorem utf8EncodeChar_isSome_of_scalar (c : Nat)
    (h : c < 55296 ∨ (57343 < c ∧ c ≤ 1114111)) : (utf8EncodeChar c).isSome := by
  rw [utf8EncodeChar]
  split_ifs <;> first | rfl | omega

theorem utf16LEEncodeChar_isSome_of_scalar (c : Nat)
    (h : c < 55296 ∨ (57343 < c ∧ c ≤ 1114111)) : (utf16LEEncodeChar c).isSome := by
  rw [utf16LEEncodeChar]
  split_ifs <;> first | rfl | omega

theorem utf32LEEncodeChar_isSome_of_scalar (c : Nat)
    (h : c < 55296 ∨ (57343 < c ∧ c ≤ 1114111)) : (utf32LEEncodeChar c).isSome := by
  rw [utf32LEEncodeChar]
  split_ifs <;> first | rfl | omega

theorem mem_strip_univ (pre : List Nat) (x : Nat)
    (h : x ∈ stripLeadingBOMChar (univNewlines pre)) : x ∈ pre ∨ x = 10 :=
  mem_univNewlines pre x (mem_stripLeadingBOMChar (univNewlines pre) x h)

/-- Any sub-text of content obtained from a successful read is encodable
under the tag the read returned (re-encoding what was decoded, or a subset
of it, never fails). -/
theorem read_content_encodable (raw c : List Nat) (enc : EncTag) (u : Bool)
    (hb : ∀ b ∈ raw, b ≤ 255)
    (h : read_with_encoding raw = some (c, enc, u)) (sub : List Nat)
    (hsub : ∀ x ∈ sub, x ∈ c) : ∃ bs, pyEncodeTag enc sub = some bs := by
  rw [read_with_encoding.eq_def] at h
  rcases hdet : detect_encoding raw with _ | e
  · rw [hdet] at h
    have h' : (match utf8Decode raw with
      | some c => some (stripLeadingBOMChar c, EncTag.utf8, false)
      | none =>
        match cp1252Decode raw with
        | some c => some (stripLeadingBOMChar c, EncTag.cp1252, false)
        | none =>
          match latin1Decode raw with
          | some c => some (stripLeadingBOMChar c, EncTag.latin1, false)
          | none => some (stripLeadingBOMChar (latin1ReplaceDecode raw), EncTag.latin1, true)) =
        some (c, enc, u) := h
    rcases h8 : utf8Decode raw with _ | c'
    · rw [h8] at h'
      rcases h12 : cp1252Decode raw with _ | c'
      · rw [h12] at h'
        rw [latin1Decode_total raw hb] at h'
        simp at h'
        obtain ⟨hc, he, hu⟩ := h'
        subst he
        rw [pyEncodeTag]
        apply mapAllBytes_some_of_mem
        intro b hbm
        have hb2 : b ∈ raw := mem_stripLeadingBOMChar raw b (hc ▸ hsub b hbm)
        rw [latin1EncodeByte, if_pos (hb b hb2)]
        rfl
      · rw [h12] at h'
        simp at h'
        obtain ⟨hc, he, hu⟩ := h'
        subst he
        rw [pyEncodeTag]
        apply mapAllBytes_some_of_mem
        intro b hbm
        have hb2 : b ∈ c' := mem_stripLeadingBOMChar c' b (hc ▸ hsub b hbm)
        have := mapAllBytes_mem_isSome cp1252EncodeByte c' raw
          (cp1252Encode_cp1252Decode raw c' h12) b hb2
        exact this
    · rw [h8] at h'
      simp at h'
      obtain ⟨hc, he, hu⟩ := h'
      subst he
      rw [pyEncodeTag]
      apply encodeAllFlat_some_of_mem
      intro x hx
      have hx2 : x ∈ c' := mem_stripLeadingBOMChar c' x (hc ▸ hsub x hx)
      exact encodeAllFlat_mem_isSome utf8EncodeChar c' raw
        (utf8Encode_utf8Decode raw c' h8) x hx2
  · rw [hdet] at h
    have h' : (match pyDecodeTag e raw with
      | none => none
      | some content => some (stripLeadingBOMChar (univNewlines content), e, false)) =
        some (c, enc, u) := h
    rcases hpd : pyDecodeTag e raw with _ | pre
    · rw [hpd] at h'; simp at h'
    · rw [hpd] at h'
      simp at h'
      obtain ⟨hc, he, hu⟩ := h'
      subst he
      have hmem : ∀ x ∈ sub, x ∈ pre ∨ x = 10 := by
        intro x hx
        exact mem_strip_univ pre x (hc ▸ hsub x hx)
      rcases detect_some_cases raw e hdet with hee | hee | hee
      · subst hee
        have hscal : ∀ x ∈ pre, x < 55296 ∨ (57343 < x ∧ x ≤ 1114111) := by
          rw [pyDecodeTag, pyUtf32Decode] at hpd
          split_ifs at hpd with p1 p2
          · exact utf32LEDecode_scalar (raw.drop 4) pre hpd
          · exact utf32BEDecode_scalar (raw.drop 4) pre hpd
          · exact utf32LEDecode_scalar raw pre hpd
        obtain ⟨bs, hbs⟩ := encodeAllFlat_some_of_mem utf32LEEncodeChar sub (by
          intro x hx
          apply utf32LEEncodeChar_isSome_of_scalar
          rcases hmem x hx with h1 | h1
          · exact hscal x h1
          · omega)
        refine ⟨[255, 254, 0, 0] ++ bs, ?_⟩
        rw [pyEncodeTag, show utf32LEEncode sub = some bs from hbs]
        rfl
      · subst hee
        have hscal : ∀ x ∈ pre, x < 55296 ∨ (57343 < x ∧ x ≤ 1114111) := by
          rw [pyDecodeTag, pyUtf16Decode] at hpd
          split_ifs at hpd with p1 p2
          · rw [utf16LEDecode] at hpd
            rcases hus : utf16LEUnits (raw.drop 2) with _ | us
            · rw [hus] at hpd; simp at hpd
            · rw [hus] at hpd
              simp at hpd
              exact utf16Combine_scalar us pre hpd
                (utf16LEUnits_flat (raw.drop 2) us hus
                  (fun b hbm => hb b (List.mem_of_mem_drop hbm))).2
          · rw [utf16BEDecode] at hpd
            rcases hus : utf16BEUnits (raw.drop 2) with _ | us
            · rw [hus] at hpd; simp at hpd
            · rw [hus] at hpd
              simp at hpd
              exact utf16Combine_scalar us pre hpd
                (utf16BEUnits_bound (raw.drop 2) us hus
                  (fun b hbm => hb b (List.mem_of_mem_drop hbm)))
          · rw [utf16LEDecode] at hpd
            rcases hus : utf16LEUnits raw with _ | us
            · rw [hus] at hpd; simp at hpd
            · rw [hus] at hpd
              simp at hpd
              exact utf16Combine_scalar us pre hpd (utf16LEUnits_flat raw us hus hb).2
        obtain ⟨bs, hbs⟩ := encodeAllFlat_some_of_mem utf16LEEncodeChar sub (by
          intro x hx
          apply utf16LEEncodeChar_isSome_of_scalar
          rcases hmem x hx with h1 | h1
          · exact hscal x h1
          · omega)
        refine ⟨[255, 254] ++ bs, ?_⟩
        rw [pyEncodeTag, show utf16LEEncode sub = some bs from hbs]
        rfl
      · subst hee
        have hesome : ∀ x ∈ pre, (utf8EncodeChar x).isSome := by
          rw [pyDecodeTag, pyUtf8SigDecode] at hpd
          split_ifs at hpd with p1
          · intro x hx
            exact encodeAllFlat_mem_isSome utf8EncodeChar pre (raw.drop 3)
              (utf8Encode_utf8Decode (raw.drop 3) pre hpd) x hx
          · intro x hx
            exact encodeAllFlat_mem_isSome utf8EncodeChar pre raw
              (utf8Encode_utf8Decode raw pre hpd) x hx
        obtain ⟨bs, hbs⟩ := encodeAllFlat_some_of_mem utf8EncodeChar sub (by
          intro x hx
          rcases hmem x hx with h1 | h1
          · exact hesome x h1
          · rw [h1]; decide)
        refine ⟨[239, 187, 191] ++ bs, ?_⟩
        rw [pyEncodeTag, show utf8Encode sub = some bs from hbs]
        rfl

theorem backupStep_if_ne_fatal (nb be io : Bool) (k : Nat) :
    (if ¬ nb then do_backup be true io else .skipped) ≠ BackupStep.fatal k := by
  rw [do_backup]
  split_ifs <;> simp_all

/-! ## Claim C3 -/

/-- C3: the large-delete gate. For a valid range whose size exceeds
`edit.confirm_large_delete`: without `--force` the delete aborts with a
non-zero status before any backup or mutation; with `--force` it succeeds
and removes exactly the lines of the range. -/
theorem C3_large_delete_gate (c : Config) (io : Bool) (raw : List Nat)
    (lines : List (List Nat)) (enc : EncTag) (u : Bool) (args : EditArgs)
    (hread : read_lines_with_encoding raw = some (lines, enc, u))
    (hb : ∀ b ∈ raw, b ≤ 255)
    (hstart : 1 ≤ args.lineStart) (hse : args.lineStart ≤ effectiveEnd args)
    (hend : effectiveEnd args ≤ (lines.length : Int))
    (hcount : effectiveEnd args - args.lineStart + 1 > c.confirmLargeDelete) :
    (args.force = false →
      cmd_delete c true io lines enc args = ⟨1, .notAttempted, .notInvoked⟩) ∧
    (args.force = true → ∃ bs,
      write_lines_with_encoding
        (lines.take (args.lineStart - 1).toNat ++ lines.drop (effectiveEnd args).toNat)
        enc = some bs ∧
      (cmd_delete c true io lines enc args).exitCode = 0 ∧
      (cmd_delete c true io lines enc args).write = .wrote bs) := by
  obtain ⟨ct, hr, hl⟩ := read_lines_inv raw lines enc u hread
  constructor
  · intro hf
    simp only [cmd_delete]
    rw [if_neg (by omega), if_neg (by omega), if_neg (by omega), if_neg (by omega),
      if_neg (by omega), if_pos ⟨hcount, by simp [hf]⟩]
  · intro hf
    have hsubsetc : ∀ x ∈ joinLines
        (lines.take (args.lineStart - 1).toNat ++ lines.drop (effectiveEnd args).toNat),
        x ∈ ct := by
      intro x hx
      obtain ⟨l, hlmem, hxl⟩ := mem_joinLines _ x hx
      have hlin : l ∈ lines := by
        rcases List.mem_append.mp hlmem with h1 | h1
        · exact List.mem_of_mem_take h1
        · exact List.mem_of_mem_drop h1
      rw [hl] at hlin
      exact mem_splitlines_mem ct l x hlin hxl
    obtain ⟨bs, hbs⟩ := read_content_encodable raw ct enc u hb hr _ hsubsetc
    refine ⟨bs, by rw [write_lines_with_encoding]; exact hbs, ?_⟩
    simp only [cmd_delete]
    rw [if_neg (by omega), if_neg (by omega), if_neg (by omega), if_neg (by omega),
      if_neg (by omega), if_neg (by simp [hf])]
    rcases hstep : (if ¬ args.noBackup then do_backup c.backupEnabled true io
      else BackupStep.skipped) with _ | _ | _ | _ | k
    · rw [write_lines_with_encoding] at *
      rw [hbs]
      exact ⟨rfl, rfl⟩
    · rw [write_lines_with_encoding] at *
      rw [hbs]
      exact ⟨rfl, rfl⟩
    · rw [write_lines_with_encoding] at *
      rw [hbs]
      exact ⟨rfl, rfl⟩
    · rw [write_lines_with_encoding] at *
      rw [hbs]
      exact ⟨rfl, rfl⟩
    · exact absurd hstep (backupStep_if_ne_fatal args.noBackup c.backupEnabled io k)

/-- C3, witness: with threshold 1, `delete 1 2` on a three-line file is
rejected without `--force` and succeeds with it. -/
theorem C3_witness :
    cmd_delete ⟨true, 20, 1, false⟩ true false [[97, 10], [98, 10], [99, 10]] EncTag.utf8
      ⟨1, some 2, none, false, false, false⟩ = ⟨1, .notAttempted, .notInvoked⟩ ∧
    ∃ bs, write_lines_with_encoding [[99, 10]] EncTag.utf8 = some bs ∧
      (cmd_delete ⟨true, 20, 1, false⟩ true false [[97, 10], [98, 10], [99, 10]] EncTag.utf8
        ⟨1, some 2, none, false, true, false⟩).exitCode = 0 ∧
      (cmd_delete ⟨true, 20, 1, false⟩ true false [[97, 10], [98, 10], [99, 10]] EncTag.utf8
        ⟨1, some 2, none, false, true, false⟩).write = .wrote bs := by
  constructor
  · exact (C3_large_delete_gate ⟨true, 20, 1, false⟩ false [97, 10, 98, 10, 99, 10]
      [[97, 10], [98, 10], [99, 10]] EncTag.utf8 false ⟨1, some 2, none, false, false, false⟩
      (by simp [read_lines_with_encoding, read_with_encoding, detect_encoding, utf8Decode,
        utf8DecodeOne, stripLeadingBOMChar, splitlinesKeepends, isBreakChar])
      (by decide) (by decide) (by decide) (by decide) (by decide)).1 rfl
  · exact (C3_large_delete_gate ⟨true, 20, 1, false⟩ false [97, 10, 98, 10, 99, 10]
      [[97, 10], [98, 10], [99, 10]] EncTag.utf8 false ⟨1, some 2, none, false, true, false⟩
      (by simp [read_lines_with_encoding, read_with_encoding, detect_encoding, utf8Decode,
        utf8DecodeOne, stripLeadingBOMChar, splitlinesKeepends, isBreakChar])
      (by decide) (by decide) (by decide) (by decide) (by decide)).2 rfl

/-! ## Claim C2 -/

/-- C2, counterexample: an explicit end argument of `0` is a line number
below 1, yet the operation does not abort — Python truthiness in
`args.line_end if args.line_end else args.line_start` silently turns it
into a single-line range, and `delete 2 0` deletes line 2 and exits 0. -/
theorem C2_counterexample :
    (0 : Int) < 1 ∧
    cmd_delete ⟨false, 20, 50, false⟩ true false [[97, 10], [98, 10], [99, 10]] EncTag.utf8
      ⟨2, some 0, none, false, false, true⟩ = ⟨0, .wrote [97, 10, 99, 10], .skipped⟩ := by
  exact ⟨by decide, by decide⟩

/-- C2 (amended): for every edit operation, an invocation whose effective
line arguments fail validation — a line below 1, a line above the bound
(`total`, or `total + 1` for insert), or start above end, after the
truthiness rule that treats an explicit end argument of `0` as an omitted
one — terminates with exit status 1 before any mutation: nothing is written
and the backup machinery is never invoked. -/
theorem C2_validation_aborts (c : Config) (fe io : Bool) (sd : List Nat)
    (lines : List (List Nat)) (enc : EncTag) (args : EditArgs) :
    ((args.lineStart < 1 ∨ args.lineStart > (lines.length : Int) ∨ effectiveEnd args < 1 ∨
        effectiveEnd args > (lines.length : Int) ∨ args.lineStart > effectiveEnd args) →
      cmd_replace c fe io sd lines enc args = ⟨1, .notAttempted, .notInvoked⟩) ∧
    ((args.lineStart < 1 ∨ args.lineStart > (lines.length : Int) + 1) →
      cmd_insert c fe io sd lines enc args = ⟨1, .notAttempted, .notInvoked⟩) ∧
    ((args.lineStart < 1 ∨ args.lineStart > (lines.length : Int)) →
      cmd_append c fe io sd lines enc args = ⟨1, .notAttempted, .notInvoked⟩) ∧
    ((args.lineStart < 1 ∨ args.lineStart > (lines.length : Int) ∨ effectiveEnd args < 1 ∨
        effectiveEnd args > (lines.length : Int) ∨ args.lineStart > effectiveEnd args) →
      cmd_delete c fe io lines enc args = ⟨1, .notAttempted, .notInvoked⟩) := by
  refine ⟨?_, ?_, ?_, ?_⟩
  · intro h
    simp only [cmd_replace]
    split_ifs <;> first | rfl | (exfalso; omega)
  · intro h
    simp only [cmd_insert]
    split_ifs <;> first | rfl | (exfalso; omega)
  · intro h
    simp only [cmd_append]
    split_ifs <;> first | rfl | (exfalso; omega)
  · intro h
    simp only [cmd_delete]
    split_ifs <;> first | rfl | (exfalso; omega)

/-- C2, witness: each of the four operations aborts cleanly on a line
number 0. -/
theorem C2_witness :
    cmd_replace ⟨true, 20, 50, false⟩ true false [] [[97, 10]] EncTag.utf8
      ⟨0, none, some [120], false, false, false⟩ = ⟨1, .notAttempted, .notInvoked⟩ ∧
    cmd_insert ⟨true, 20, 50, false⟩ true false [] [[97, 10]] EncTag.utf8
      ⟨0, none, some [120], false, false, false⟩ = ⟨1, .notAttempted, .notInvoked⟩ ∧
    cmd_append ⟨true, 20, 50, false⟩ true false [] [[97, 10]] EncTag.utf8
      ⟨0, none, some [120], false, false, false⟩ = ⟨1, .notAttempted, .notInvoked⟩ ∧
    cmd_delete ⟨true, 20, 50, false⟩ true false [[97, 10]] EncTag.utf8
      ⟨0, none, some [120], false, false, false⟩ = ⟨1, .notAttempted, .notInvoked⟩ := by
  obtain ⟨h1, h2, h3, h4⟩ := C2_validation_aborts ⟨true, 20, 50, false⟩ true false []
    [[97, 10]] EncTag.utf8 ⟨0, none, some [120], false, false, false⟩
  exact ⟨h1 (by decide), h2 (by decide), h3 (by decide), h4 (by decide)⟩

/-! ## Claim C4 -/

/-- C4: the code contradicts the claim (and the specification). On an
existing file a backup failure is indeed downgraded to a printed warning and
the edit proceeds (third conjunct). But when `edit.create_if_missing` lets
an edit start on a not-yet-existing file, `do_backup`'s `except Exception`
does NOT catch the `SystemExit` raised by `save_backup`'s `sys.exit(1)` for
a missing file, so the process aborts with status 1 before mutating —
the edit does not proceed (second conjunct), contradicting the claim that a
backup failure never prevents the edit from completing. -/
theorem C4_backup_abort_divergence :
    read_file ⟨true, 20, 50, true⟩ false [] = some ([], EncTag.utf8) ∧
    cmd_insert ⟨true, 20, 50, true⟩ false false [] [] EncTag.utf8
      ⟨1, none, some [120], false, false, false⟩ = ⟨1, .notAttempted, .fatal 1⟩ ∧
    cmd_insert ⟨true, 20, 50, true⟩ true true [] [[97, 10]] EncTag.utf8
      ⟨1, none, some [120], false, false, false⟩ =
      ⟨0, .wrote [120, 10, 97, 10], .warned⟩ := by
  exact ⟨by decide, by decide, by decide⟩

/-- C10, witness: the byte `0x81` defeats strict utf-8 (lone continuation
byte) and cp1252 (undefined code point), so the read lands on latin-1 and
still succeeds without the replacement branch. -/
theorem C10_witness :
    (∀ b ∈ ([129] : List Nat), b ≤ 255) ∧
    (detect_encoding [129] = none →
      ∃ lines enc, read_lines_with_encoding [129] = some (lines, enc, false) ∧
        (enc = .utf8 ∨ enc = .cp1252 ∨ enc = .latin1)) ∧
    (∀ c e v, read_with_encoding [129] = some (c, e, v) → v = false) :=
  ⟨by decide, (C10_fallback_total [129] (by decide)).1, (C10_fallback_total [129] (by decide)).2⟩

/-! ## Claim C1 -/

/-- C1, counterexample: the universal statement fails when a replacement
"line" contains a break character in its interior. Replacing line 1 of the
one-line file `a\n` with the content string `x<CR>y` writes `x\ry\n`, and
re-reading splits that into the two lines `x\r` and `y\n` — not the single
spliced line the claim promises. -/
theorem C1_counterexample :
    cmd_replace ⟨true, 20, 50, false⟩ true false [] [[97, 10]] EncTag.utf8
      ⟨1, none, some [120, 13, 121], false, false, true⟩ =
      ⟨0, .wrote [120, 13, 121, 10], .skipped⟩ ∧
    read_lines_with_encoding [120, 13, 121, 10] =
      some ([[120, 13], [121, 10]], EncTag.utf8, false) ∧
    ([[120, 13], [121, 10]] : List (List Nat)) ≠ [[120, 13, 121, 10]] := by
  refine ⟨by decide, ?_, by decide⟩
  simp [read_lines_with_encoding, read_with_encoding, detect_encoding, List.isPrefixOf,
    utf8Decode, utf8DecodeOne, stripLeadingBOMChar, splitlinesKeepends, isBreakChar]

/-- C1 (amended): for a document read from disk, a valid range
`1 ≤ start ≤ end ≤ total` and replacement lines `L` obtained from the
content argument, `replace` succeeds and re-reading yields exactly
`original[0:start-1] ++ L ++ original[end:]` — provided the spliced
document is a well-formed line sequence (each line carries exactly its own
terminator), it re-encodes under the tag of the original read, the re-read
detects that same tag, the text carries no `\r` when the tag is a
byte-order-marker codec, and it does not begin with U+FEFF. -/
theorem C1_replace (c : Config) (io : Bool) (sd raw raw2 c3 : List Nat)
    (lines L : List (List Nat)) (enc : EncTag) (u u3 : Bool) (args : EditArgs)
    (hread : read_lines_with_encoding raw = some (lines, enc, u))
    (hstart : 1 ≤ args.lineStart) (hse : args.lineStart ≤ effectiveEnd args)
    (hend : effectiveEnd args ≤ (lines.length : Int))
    (hparse : parse_content args.content args.useStdin sd = some L)
    (hwf : wfLines (lines.take (args.lineStart - 1).toNat ++ L ++
      lines.drop (effectiveEnd args).toNat) = true)
    (henc : pyEncodeTag enc (joinLines (lines.take (args.lineStart - 1).toNat ++ L ++
      lines.drop (effectiveEnd args).toNat)) = some raw2)
    (hread2 : read_with_encoding raw2 = some (c3, enc, u3))
    (hcr : (enc = .utf32 ∨ enc = .utf16 ∨ enc = .utf8sig) →
      13 ∉ joinLines (lines.take (args.lineStart - 1).toNat ++ L ++
        lines.drop (effectiveEnd args).toNat))
    (hfeff : (joinLines (lines.take (args.lineStart - 1).toNat ++ L ++
      lines.drop (effectiveEnd args).toNat)).head? ≠ some 65279) :
    (cmd_replace c true io sd lines enc args).exitCode = 0 ∧
    (cmd_replace c true io sd lines enc args).write = .wrote raw2 ∧
    splitlinesKeepends c3 =
      lines.take (args.lineStart - 1).toNat ++ L ++ lines.drop (effectiveEnd args).toNat := by
  have hc3 : c3 = joinLines (lines.take (args.lineStart - 1).toNat ++ L ++
      lines.drop (effectiveEnd args).toNat) :=
    write_read_content _ raw2 c3 enc u3 henc hread2 hcr hfeff
  have hsplit : splitlinesKeepends c3 =
      lines.take (args.lineStart - 1).toNat ++ L ++ lines.drop (effectiveEnd args).toNat := by
    rw [hc3]
    exact splitlines_joinLines _ hwf
  have hw : write_lines_with_encoding (lines.take (args.lineStart - 1).toNat ++ L ++
      lines.drop (effectiveEnd args).toNat) enc = some raw2 := by
    rw [write_lines_with_encoding]
    exact henc
  have hres : ∃ st, cmd_replace c true io sd lines enc args =
      ⟨0, WriteOut.wrote raw2, st⟩ := by
    simp only [cmd_replace]
    rw [if_neg (by omega), if_neg (by omega), if_neg (by omega), if_neg (by omega),
      if_neg (by omega)]
    simp only [hparse]
    rcases hstep : (if ¬ args.noBackup then do_backup c.backupEnabled true io
      else BackupStep.skipped) with _ | _ | _ | _ | k
    · exact ⟨BackupStep.notInvoked, by simp only [hw]⟩
    · exact ⟨BackupStep.skipped, by simp only [hw]⟩
    · exact ⟨BackupStep.saved, by simp only [hw]⟩
    · exact ⟨BackupStep.warned, by simp only [hw]⟩
    · exact absurd hstep (backupStep_if_ne_fatal args.noBackup c.backupEnabled io k)
  obtain ⟨st, hres⟩ := hres
  exact ⟨by rw [hres], by rw [hres], hsplit⟩

/-- C1, witness: replacing line 2 of `a\nb\nc\n` with `B` succeeds, writes
`a\nB\nc\n`, and the re-read line sequence is the expected splice. -/
theorem C1_witness :
    read_lines_with_encoding [97, 10, 98, 10, 99, 10] =
      some ([[97, 10], [98, 10], [99, 10]], EncTag.utf8, false) ∧
    (cmd_replace ⟨true, 20, 50, false⟩ true false [] [[97, 10], [98, 10], [99, 10]]
      EncTag.utf8 ⟨2, some 2, some [66], false, false, false⟩).exitCode = 0 ∧
    (cmd_replace ⟨true, 20, 50, false⟩ true false [] [[97, 10], [98, 10], [99, 10]]
      EncTag.utf8 ⟨2, some 2, some [66], false, false, false⟩).write =
      .wrote [97, 10, 66, 10, 99, 10] ∧
    splitlinesKeepends [97, 10, 66, 10, 99, 10] = [[97, 10], [66, 10], [99, 10]] := by
  have hread : read_lines_with_encoding [97, 10, 98, 10, 99, 10] =
      some ([[97, 10], [98, 10], [99, 10]], EncTag.utf8, false) := by
    simp [read_lines_with_encoding, read_with_encoding, detect_encoding, List.isPrefixOf,
      utf8Decode, utf8DecodeOne, stripLeadingBOMChar, splitlinesKeepends, isBreakChar]
  have hread2 : read_with_encoding [97, 10, 66, 10, 99, 10] =
      some ([97, 10, 66, 10, 99, 10], EncTag.utf8, false) := by
    simp [read_with_encoding, detect_encoding, List.isPrefixOf,
      utf8Decode, utf8DecodeOne, stripLeadingBOMChar]
  have h := C1_replace ⟨true, 20, 50, false⟩ false [] [97, 10, 98, 10, 99, 10]
    [97, 10, 66, 10, 99, 10] [97, 10, 66, 10, 99, 10]
    [[97, 10], [98, 10], [99, 10]] [[66, 10]] EncTag.utf8 false false
    ⟨2, some 2, some [66], false, false, false⟩ hread (by decide) (by decide) (by decide)
    (by decide) (by decide) (by decide) hread2 (by decide) (by decide)
  refine ⟨hread, h.1, h.2.1, ?_⟩
  rw [h.2.2]
  decide

/-! ## Claim C6 -/

/-- C6, counterexample: insert-then-delete is not an inverse pair as
universally stated. Inserting the content string `x<CR>y` before line 1 of
`a\n` writes `x\ry\n a\n` as two "lines", but the re-read splits the text
into three lines, so deleting `len(L) = 1` line at the insertion point
removes only `x\r` and leaves `y\na\n` ≠ `a\n`. -/
theorem C6_counterexample :
    cmd_insert ⟨true, 20, 50, false⟩ true false [] [[97, 10]] EncTag.utf8
      ⟨1, none, some [120, 13, 121], false, false, true⟩ =
      ⟨0, .wrote [120, 13, 121, 10, 97, 10], .skipped⟩ ∧
    read_lines_with_encoding [120, 13, 121, 10, 97, 10] =
      some ([[120, 13], [121, 10], [97, 10]], EncTag.utf8, false) ∧
    cmd_delete ⟨true, 20, 50, false⟩ true false [[120, 13], [121, 10], [97, 10]] EncTag.utf8
      ⟨1, some 1, none, false, false, true⟩ =
      ⟨0, .wrote [121, 10, 97, 10], .skipped⟩ ∧
    ([121, 10, 97, 10] : List Nat) ≠ [97, 10] := by
  refine ⟨by decide, ?_, by decide, by decide⟩
  simp [read_lines_with_encoding, read_with_encoding, detect_encoding, List.isPrefixOf,
    utf8Decode, utf8DecodeOne, stripLeadingBOMChar, splitlinesKeepends, isBreakChar]

/-- C6 (amended): for a document read from disk and a valid insertion point
`1 ≤ line ≤ total + 1`, `insert(line, L)` followed by
`delete(line, line + len(L) - 1)` on the re-read document — backups disabled
for both calls — writes back the original file bytes, provided the inserted
document is a well-formed line sequence, it re-encodes and re-reads under
the original tag (no `\r` under a byte-order-marker tag, no leading U+FEFF),
the original document re-encodes to its own bytes, and the delete passes the
large-delete gate. -/
theorem C6_insert_delete (c : Config) (io : Bool) (sd raw raw2 c2 : List Nat)
    (lines L : List (List Nat)) (enc : EncTag) (u u2 : Bool) (args : EditArgs) (force2 : Bool)
    (hread : read_lines_with_encoding raw = some (lines, enc, u))
    (hnb : args.noBackup = true)
    (hstart : 1 ≤ args.lineStart) (hle : args.lineStart ≤ (lines.length : Int) + 1)
    (hparse : parse_content args.content args.useStdin sd = some L)
    (hwf : wfLines (lines.take (args.lineStart - 1).toNat ++ L ++
      lines.drop (args.lineStart - 1).toNat) = true)
    (henc2 : pyEncodeTag enc (joinLines (lines.take (args.lineStart - 1).toNat ++ L ++
      lines.drop (args.lineStart - 1).toNat)) = some raw2)
    (hread2 : read_with_encoding raw2 = some (c2, enc, u2))
    (hcr : (enc = .utf32 ∨ enc = .utf16 ∨ enc = .utf8sig) →
      13 ∉ joinLines (lines.take (args.lineStart - 1).toNat ++ L ++
        lines.drop (args.lineStart - 1).toNat))
    (hfeff : (joinLines (lines.take (args.lineStart - 1).toNat ++ L ++
      lines.drop (args.lineStart - 1).toNat)).head? ≠ some 65279)
    (hgate : (L.length : Int) ≤ c.confirmLargeDelete ∨ force2 = true)
    (hself : pyEncodeTag enc (joinLines lines) = some raw) :
    cmd_insert c true io sd lines enc args = ⟨0, .wrote raw2, .skipped⟩ ∧
    cmd_delete c true io (splitlinesKeepends c2) enc
      ⟨args.lineStart, some (args.lineStart + L.length - 1), none, false, force2, true⟩ =
      ⟨0, .wrote raw, .skipped⟩ := by
  have hLne : L ≠ [] := parse_content_ne_nil args.content args.useStdin sd L hparse
  have hLpos : 0 < L.length := List.length_pos.mpr hLne
  have hkle : (args.lineStart - 1).toNat ≤ lines.length := by omega
  have hk : (lines.take (args.lineStart - 1).toNat).length = (args.lineStart - 1).toNat := by
    rw [List.length_take]
    omega
  have hw2 : write_lines_with_encoding (lines.take (args.lineStart - 1).toNat ++ L ++
      lines.drop (args.lineStart - 1).toNat) enc = some raw2 := by
    rw [write_lines_with_encoding]
    exact henc2
  have hins : cmd_insert c true io sd lines enc args = ⟨0, .wrote raw2, .skipped⟩ := by
    simp only [cmd_insert]
    rw [if_neg (by omega)]
    simp only [hparse]
    have hstep : (if ¬ args.noBackup then do_backup c.backupEnabled true io
        else BackupStep.skipped) = BackupStep.skipped := by
      rw [hnb]
      simp
    simp only [hstep, hw2]
  have hc2 : c2 = joinLines (lines.take (args.lineStart - 1).toNat ++ L ++
      lines.drop (args.lineStart - 1).toNat) :=
    write_read_content _ raw2 c2 enc u2 henc2 hread2 hcr hfeff
  have hsplit : splitlinesKeepends c2 = lines.take (args.lineStart - 1).toNat ++ L ++
      lines.drop (args.lineStart - 1).toNat := by
    rw [hc2]
    exact splitlines_joinLines _ hwf
  refine ⟨hins, ?_⟩
  rw [hsplit]
  have hee : effectiveEnd ⟨args.lineStart, some (args.lineStart + (L.length : Int) - 1),
      none, false, force2, true⟩ = args.lineStart + (L.length : Int) - 1 := by
    simp only [effectiveEnd]
    rw [if_pos (by omega)]
  have hlen2 : (lines.take (args.lineStart - 1).toNat ++ L ++
      lines.drop (args.lineStart - 1).toNat).length = lines.length + L.length := by
    simp only [List.length_append, List.length_take, List.length_drop]
    omega
  have htake : (lines.take (args.lineStart - 1).toNat ++ L ++
      lines.drop (args.lineStart - 1).toNat).take (args.lineStart - 1).toNat =
      lines.take (args.lineStart - 1).toNat := by
    rw [List.append_assoc]
    exact List.take_left' hk
  have hdrop : (lines.take (args.lineStart - 1).toNat ++ L ++
      lines.drop (args.lineStart - 1).toNat).drop
        (args.lineStart + (L.length : Int) - 1).toNat =
      lines.drop (args.lineStart - 1).toNat := by
    apply List.drop_left'
    rw [List.length_append, hk]
    omega
  have hwr : write_lines_with_encoding
      ((lines.take (args.lineStart - 1).toNat ++ L ++
        lines.drop (args.lineStart - 1).toNat).take (args.lineStart - 1).toNat ++
       (lines.take (args.lineStart - 1).toNat ++ L ++
        lines.drop (args.lineStart - 1).toNat).drop
          (args.lineStart + (L.length : Int) - 1).toNat) enc = some raw := by
    rw [htake, hdrop, List.take_append_drop, write_lines_with_encoding]
    exact hself
  simp only [cmd_delete]
  rw [hee]
  rw [if_neg (by omega), if_neg (by rw [hlen2]; push_cast; omega),
    if_neg (by omega), if_neg (by rw [hlen2]; push_cast; omega), if_neg (by omega),
    if_neg (by rintro ⟨h1, h2⟩; rcases hgate with hg | hg; exacts [by omega, h2 hg])]
  rw [if_neg (by simp)]
  simp only [hwr]

/-- C6, witness: inserting `X` before line 2 of `a\nb\n` and then deleting
line 2 of the re-read document restores the original bytes. -/
theorem C6_witness :
    read_lines_with_encoding [97, 10, 98, 10] =
      some ([[97, 10], [98, 10]], EncTag.utf8, false) ∧
    cmd_insert ⟨true, 20, 50, false⟩ true false [] [[97, 10], [98, 10]] EncTag.utf8
      ⟨2, none, some [88], false, false, true⟩ =
      ⟨0, .wrote [97, 10, 88, 10, 98, 10], .skipped⟩ ∧
    cmd_delete ⟨true, 20, 50, false⟩ true false [[97, 10], [88, 10], [98, 10]] EncTag.utf8
      ⟨2, some 2, none, false, false, true⟩ = ⟨0, .wrote [97, 10, 98, 10], .skipped⟩ := by
  have hread : read_lines_with_encoding [97, 10, 98, 10] =
      some ([[97, 10], [98, 10]], EncTag.utf8, false) := by
    simp [read_lines_with_encoding, read_with_encoding, detect_encoding, List.isPrefixOf,
      utf8Decode, utf8DecodeOne, stripLeadingBOMChar, splitlinesKeepends, isBreakChar]
  have hread2 : read_with_encoding [97, 10, 88, 10, 98, 10] =
      some ([97, 10, 88, 10, 98, 10], EncTag.utf8, false) := by
    simp [read_with_encoding, detect_encoding, List.isPrefixOf,
      utf8Decode, utf8DecodeOne, stripLeadingBOMChar]
  have h := C6_insert_delete ⟨true, 20, 50, false⟩ false [] [97, 10, 98, 10]
    [97, 10, 88, 10, 98, 10] [97, 10, 88, 10, 98, 10] [[97, 10], [98, 10]] [[88, 10]]
    EncTag.utf8 false false ⟨2, none, some [88], false, false, true⟩ false hread
    (by decide) (by decide) (by decide) (by decide) (by decide) (by decide) hread2
    (by decide) (by decide) (by decide) (by decide)
  exact ⟨hread, h.1, h.2⟩

/-! ## Claim C7 -/

/-- The backup-directory state after a sequence of `save_backup` calls for
one target file, one call per timestamp, oldest first. -/
def saveSeq (maxB : Nat) (base : List Nat) (dir : List (List Nat)) :
    List (List Nat) → List (List Nat)
  | [] => dir
  | ts :: rest => saveSeq maxB base (save_backup_store maxB base ts none dir) rest

theorem nameLt_irrefl (a : List Nat) : nameLt a a = false := by
  induction a with
  | nil => rfl
  | cons c t ih =>
    rw [nameLt]
    simp [ih]

theorem ne_of_nameLt (a b : List Nat) (h : nameLt a b = true) : a ≠ b := by
  intro hcon
  subst hcon
  rw [nameLt_irrefl] at h
  exact Bool.false_ne_true h

theorem nameLe_of_nameLt (a b : List Nat) (h : nameLt a b = true) : nameLe a b = true := by
  induction a generalizing b with
  | nil => cases b <;> rfl
  | cons c t ih =>
    cases b with
    | nil => rw [nameLt] at h; exact absurd h (by simp)
    | cons d s =>
      rw [nameLt] at h
      rw [nameLe]
      by_cases h1 : c < d
      · rw [if_pos h1]
      · rw [if_neg h1] at h ⊢
        by_cases h2 : d < c
        · rw [if_pos h2] at h
          exact absurd h (by simp)
        · rw [if_neg h2] at h ⊢
          exact ih s h

theorem nameLt_append_left (p a b : List Nat) : nameLt (p ++ a) (p ++ b) = nameLt a b := by
  induction p with
  | nil => rfl
  | cons c t ih =>
    show nameLt (c :: (t ++ a)) (c :: (t ++ b)) = nameLt a b
    rw [nameLt]
    simp [ih]

theorem sortNames_pairwise (l : List (List Nat))
    (h : l.Pairwise (fun a b => nameLt a b = true)) : sortNames l = l := by
  induction l with
  | nil => rfl
  | cons a as ih =>
    rcases List.pairwise_cons.mp h with ⟨hall, htail⟩
    rw [sortNames, ih htail]
    cases as with
    | nil => rfl
    | cons b bs =>
      rw [insertName, if_pos (nameLe_of_nameLt a b (hall b (by simp)))]

theorem filter_prefix_names (base : List Nat) (w : List (List Nat)) :
    (w.map (fun ts => base ++ [46] ++ ts)).filter
      (fun f => List.isPrefixOf (base ++ [46]) f) =
      w.map (fun ts => base ++ [46] ++ ts) := by
  apply List.filter_eq_self.mpr
  intro n hn
  rcases List.mem_map.mp hn with ⟨ts, _, hts⟩
  rw [← hts]
  exact isPrefixOf_append_self (base ++ [46]) ts

theorem pairwise_names (base : List Nat) (w : List (List Nat))
    (h : w.Pairwise (fun a b => nameLt a b = true)) :
    (w.map (fun ts => base ++ [46] ++ ts)).Pairwise (fun a b => nameLt a b = true) := by
  rw [List.pairwise_map]
  refine h.imp ?_
  intro a b hab
  rw [nameLt_append_left]
  exact hab

theorem list_backups_names (base : List Nat) (w : List (List Nat))
    (h : w.Pairwise (fun a b => nameLt a b = true)) :
    list_backups base (w.map (fun ts => base ++ [46] ++ ts)) =
      w.map (fun ts => base ++ [46] ++ ts) := by
  rw [list_backups, filter_prefix_names, sortNames_pairwise _ (pairwise_names base w h)]

theorem removeFile_cons_self (x : List Nat) (t : List (List Nat)) (h : x ∉ t) :
    removeFile (x :: t) x = t := by
  rw [removeFile, List.filter_cons, if_neg (by simp)]
  apply List.filter_eq_self.mpr
  intro b hb
  simp only [ne_eq, decide_eq_true_eq]
  intro hcon
  exact h (hcon ▸ hb)

theorem pruneLoop_self (maxB : Nat) (bs : List (List Nat))
    (h : bs.Pairwise (fun a b => nameLt a b = true)) :
    pruneLoop maxB bs bs = bs.drop (bs.length - maxB) := by
  induction bs with
  | nil =>
    rw [pruneLoop, if_neg (by simp)]
    simp
  | cons x t ih =>
    rcases List.pairwise_cons.mp h with ⟨hall, htail⟩
    by_cases hlen : (x :: t).length > maxB
    · rw [pruneLoop, if_pos hlen]
      have hx : x ∉ t := fun hmem => by
        have h2 := hall x hmem
        rw [nameLt_irrefl] at h2
        exact Bool.false_ne_true h2
      rw [removeFile_cons_self x t hx, ih htail]
      have harith : (x :: t).length - maxB = (t.length - maxB) + 1 := by
        simp only [List.length_cons] at hlen ⊢
        omega
      rw [harith, List.drop_succ_cons]
    · rw [pruneLoop, if_neg hlen]
      have harith : (x :: t).length - maxB = 0 := by
        simp only [List.length_cons] at hlen ⊢
        omega
      rw [harith, List.drop_zero]

theorem saveSeq_window (maxB : Nat) (base : List Nat) (tss : List (List Nat)) :
    ∀ w : List (List Nat),
      w.Pairwise (fun a b => nameLt a b = true) →
      w.length ≤ maxB →
      (∀ a ∈ w, ∀ b ∈ tss, nameLt a b = true) →
      tss.Pairwise (fun a b => nameLt a b = true) →
      saveSeq maxB base (w.map (fun ts => base ++ [46] ++ ts)) tss =
        ((w ++ tss).drop ((w.length + tss.length) - maxB)).map
          (fun ts => base ++ [46] ++ ts) := by
  induction tss with
  | nil =>
    intro w hw hlen _ _
    rw [saveSeq]
    have h0 : (w.length + ([] : List (List Nat)).length) - maxB = 0 := by
      simp only [List.length_nil]
      omega
    rw [h0, List.append_nil, List.drop_zero]
  | cons ts rest ih =>
    intro w hw hlen hcross htss
    rw [saveSeq]
    have hnotmem : base ++ [46] ++ ts ∉ w.map (fun t2 => base ++ [46] ++ t2) := by
      intro hmem
      rcases List.mem_map.mp hmem with ⟨a, ha, hae⟩
      have hats : a = ts := List.append_cancel_left hae
      have hlt := hcross a ha ts (by simp)
      rw [hats, nameLt_irrefl] at hlt
      exact Bool.false_ne_true hlt
    have hstep : save_backup_store maxB base ts none
        (w.map (fun t2 => base ++ [46] ++ t2)) =
        ((w ++ [ts]).drop ((w.length + 1) - maxB)).map (fun t2 => base ++ [46] ++ t2) := by
      rw [save_backup_store]
      have hcopy : copyInto (w.map (fun t2 => base ++ [46] ++ t2))
          (backup_filename base ts none) =
          (w ++ [ts]).map (fun t2 => base ++ [46] ++ t2) := by
        rw [backup_filename, copyInto, if_neg hnotmem, List.map_append, List.map_cons,
          List.map_nil]
      rw [hcopy]
      have hpw2 : (w ++ [ts]).Pairwise (fun a b => nameLt a b = true) := by
        rw [List.pairwise_append]
        refine ⟨hw, by simp, ?_⟩
        intro a ha b hb
        rw [List.mem_singleton.mp hb]
        exact hcross a ha ts (by simp)
      rw [prune_backups, list_backups_names base (w ++ [ts]) hpw2,
        pruneLoop_self maxB _ (pairwise_names base (w ++ [ts]) hpw2)]
      rw [← List.map_drop]
      simp only [List.length_map, List.length_append, List.length_cons, List.length_nil]
    rw [hstep]
    have hpw2 : (w ++ [ts]).Pairwise (fun a b => nameLt a b = true) := by
      rw [List.pairwise_append]
      refine ⟨hw, by simp, ?_⟩
      intro a ha b hb
      rw [List.mem_singleton.mp hb]
      exact hcross a ha ts (by simp)
    have hih := ih ((w ++ [ts]).drop ((w.length + 1) - maxB))
      (hpw2.sublist (List.drop_sublist _ _))
      (by simp only [List.length_drop, List.length_append, List.length_cons, List.length_nil]; omega)
      (by
        intro a ha b hb
        rcases List.mem_append.mp (List.mem_of_mem_drop ha) with h1 | h1
        · exact hcross a h1 b (List.mem_cons_of_mem ts hb)
        · rw [List.mem_singleton.mp h1]
          exact (List.pairwise_cons.mp htss).1 b hb)
      (List.pairwise_cons.mp htss).2
    rw [hih]
    have hre : ((w ++ [ts]) ++ rest).drop ((w.length + 1) - maxB) =
        (w ++ [ts]).drop ((w.length + 1) - maxB) ++ rest :=
      List.drop_append_of_le_length
        (by simp only [List.length_append, List.length_cons, List.length_nil]; omega)
    rw [← hre, List.drop_drop]
    have hlist : (w ++ [ts]) ++ rest = w ++ ts :: rest := by
      rw [List.append_assoc, List.singleton_append]
    rw [hlist]
    have harith : ((w.length + 1) - maxB) +
        (((w ++ [ts]).drop ((w.length + 1) - maxB)).length + rest.length - maxB) =
        w.length + (ts :: rest).length - maxB := by
      simp only [List.length_drop, List.length_append, List.length_cons, List.length_nil]
      omega
    rw [harith]

/-- C7: retention with oldest-first eviction. Starting from an empty backup
directory, after `maxB + k` snapshot creations for one file at strictly
increasing timestamps, `list_backups` returns exactly `maxB` entries, and
they are the `maxB` most recent snapshots in creation order. -/
theorem C7_retention (maxB k : Nat) (base : List Nat) (tss : List (List Nat))
    (hlen : tss.length = maxB + k)
    (hsorted : tss.Pairwise (fun a b => nameLt a b = true)) :
    list_backups base (saveSeq maxB base [] tss) =
      (tss.drop k).map (fun ts => base ++ [46] ++ ts) ∧
    (list_backups base (saveSeq maxB base [] tss)).length = maxB := by
  have h0 := saveSeq_window maxB base tss [] (by simp) (by simp) (by simp) hsorted
  simp only [List.map_nil, List.nil_append, List.length_nil, Nat.zero_add] at h0
  rw [hlen] at h0
  have hk : maxB + k - maxB = k := by omega
  rw [hk] at h0
  have hpwd : (tss.drop k).Pairwise (fun a b => nameLt a b = true) :=
    hsorted.sublist (List.drop_sublist _ _)
  constructor
  · rw [h0]
    exact list_backups_names base (tss.drop k) hpwd
  · rw [h0, list_backups_names base (tss.drop k) hpwd]
    simp only [List.length_map, List.length_drop, hlen]
    omega

/-- C7, witness: with `max_backups = 1`, two saves at timestamps `0` then
`1` leave exactly the newer snapshot listed. -/
theorem C7_witness :
    ([[48], [49]] : List (List Nat)).length = 1 + 1 ∧
    ([[48], [49]] : List (List Nat)).Pairwise (fun a b => nameLt a b = true) ∧
    list_backups [97] (saveSeq 1 [97] [] [[48], [49]]) = [[97, 46, 49]] ∧
    (list_backups [97] (saveSeq 1 [97] [] [[48], [49]])).length = 1 := by
  have h := C7_retention 1 1 [97] [[48], [49]] (by decide) (by decide)
  refine ⟨by decide, by decide, ?_, h.2⟩
  rw [h.1]
  decide

/-! ## Claim C8 -/

theorem pruneLoop_stop (maxB : Nat) (bs dir : List (List Nat))
    (h : ¬ bs.length > maxB) : pruneLoop maxB bs dir = dir := by
  cases bs with
  | nil => rw [pruneLoop, if_neg h]
  | cons x t => rw [pruneLoop, if_neg h]

theorem mem_insertName (a b : List Nat) (l : List (List Nat)) (h : b ∈ l) :
    b ∈ insertName a l := by
  induction l with
  | nil => simp at h
  | cons c cs ih =>
    rw [insertName]
    split_ifs
    · exact List.mem_cons_of_mem a h
    · rcases List.mem_cons.mp h with h1 | h1
      · rw [h1]
        exact List.mem_cons_self c _
      · exact List.mem_cons_of_mem c (ih h1)

theorem mem_sortNames (a : List Nat) (l : List (List Nat)) (h : a ∈ l) :
    a ∈ sortNames l := by
  induction l with
  | nil => simp at h
  | cons c cs ih =>
    rw [sortNames]
    rcases List.mem_cons.mp h with h1 | h1
    · subst h1
      clear ih h
      induction sortNames cs with
      | nil => simp [insertName]
      | cons d ds ih2 =>
        rw [insertName]
        split_ifs
        · exact List.mem_cons_self a _
        · exact List.mem_cons_of_mem d ih2
    · exact mem_insertName c a (sortNames cs) (ih h1)

/-- C8, counterexample: two snapshots of the same file with the same tag in
the same second get the same timestamp, hence the same filename — the second
`copy2` silently overwrites the first and only one snapshot remains, not
two. -/
theorem C8_counterexample :
    save_backup_store 20 [97] [48] (some [116])
      (save_backup_store 20 [97] [48] (some [116]) []) = [[97, 46, 48, 46, 116]] ∧
    ([[97, 46, 48, 46, 116]] : List (List Nat)).length ≠ 2 := by
  constructor
  · rfl
  · decide

/-- C8 (amended): two same-tag snapshots collide exactly when their
second-resolution timestamps coincide. When the two timestamps differ (equal
format length, as `%Y%m%d_%H%M%S` guarantees), the snapshot names are
distinct and, with `max_backups` at least 2, both snapshots are listed after
the two saves. -/
theorem C8_distinct (maxB : Nat) (hmax : 2 ≤ maxB) (base t1 t2 tag : List Nat)
    (hlen : t1.length = t2.length) (hne : t1 ≠ t2) :
    backup_filename base t1 (some tag) ≠ backup_filename base t2 (some tag) ∧
    save_backup_store maxB base t2 (some tag)
      (save_backup_store maxB base t1 (some tag) []) =
      [backup_filename base t1 (some tag), backup_filename base t2 (some tag)] ∧
    backup_filename base t1 (some tag) ∈ list_backups base
      [backup_filename base t1 (some tag), backup_filename base t2 (some tag)] ∧
    backup_filename base t2 (some tag) ∈ list_backups base
      [backup_filename base t1 (some tag), backup_filename base t2 (some tag)] := by
  have hnameNe : backup_filename base t1 (some tag) ≠ backup_filename base t2 (some tag) := by
    intro hcon
    rw [backup_filename, backup_filename] at hcon
    simp only [List.append_assoc] at hcon
    have h1 := List.append_cancel_left hcon
    have h2 := List.append_cancel_left h1
    exact hne (List.append_inj h2 hlen).1
  have hpre : ∀ t : List Nat, List.isPrefixOf (base ++ [46])
      (backup_filename base t (some tag)) = true := by
    intro t
    rw [backup_filename]
    have hshape : base ++ [46] ++ t ++ [46] ++ sanitizeTagSave tag =
        (base ++ [46]) ++ (t ++ [46] ++ sanitizeTagSave tag) := by
      simp [List.append_assoc]
    rw [hshape]
    exact isPrefixOf_append_self (base ++ [46]) _
  have hsave1 : save_backup_store maxB base t1 (some tag) [] =
      [backup_filename base t1 (some tag)] := by
    rw [save_backup_store, copyInto, if_neg (by simp), prune_backups, list_backups,
      List.nil_append]
    rw [List.filter_cons, if_pos (hpre t1), List.filter_nil]
    rw [show sortNames [backup_filename base t1 (some tag)] =
      [backup_filename base t1 (some tag)] from rfl]
    rw [pruneLoop_stop maxB _ _ (by simp only [List.length_cons, List.length_nil]; omega)]
  have hsave2 : save_backup_store maxB base t2 (some tag)
      [backup_filename base t1 (some tag)] =
      [backup_filename base t1 (some tag), backup_filename base t2 (some tag)] := by
    rw [save_backup_store, copyInto,
      if_neg (by
        simp only [List.mem_singleton]
        exact fun hcon => hnameNe hcon.symm),
      prune_backups, list_backups, List.singleton_append]
    rw [List.filter_cons, if_pos (hpre t1), List.filter_cons, if_pos (hpre t2),
      List.filter_nil]
    have hlb : (sortNames [backup_filename base t1 (some tag),
        backup_filename base t2 (some tag)]).length = 2 := by
      simp only [sortNames, insertName]
      split_ifs <;> rfl
    rw [pruneLoop_stop maxB _ _ (by rw [hlb]; omega)]
  refine ⟨hnameNe, by rw [hsave1, hsave2], ?_, ?_⟩
  · rw [list_backups]
    apply mem_sortNames
    rw [List.filter_cons, if_pos (hpre t1), List.filter_cons, if_pos (hpre t2)]
    simp
  · rw [list_backups]
    apply mem_sortNames
    rw [List.filter_cons, if_pos (hpre t1), List.filter_cons, if_pos (hpre t2)]
    simp

/-- C8, witness: timestamps `0` and `1` with tag `t` give two distinct
snapshot names, both listed. -/
theorem C8_witness :
    2 ≤ 2 ∧ ([48] : List Nat).length = ([49] : List Nat).length ∧
    ([48] : List Nat) ≠ [49] ∧
    backup_filename [97] [48] (some [116]) ≠ backup_filename [97] [49] (some [116]) ∧
    save_backup_store 2 [97] [49] (some [116])
      (save_backup_store 2 [97] [48] (some [116]) []) =
      [backup_filename [97] [48] (some [116]), backup_filename [97] [49] (some [116])] ∧
    backup_filename [97] [48] (some [116]) ∈ list_backups [97]
      [backup_filename [97] [48] (some [116]), backup_filename [97] [49] (some [116])] ∧
    backup_filename [97] [49] (some [116]) ∈ list_backups [97]
      [backup_filename [97] [48] (some [116]), backup_filename [97] [49] (some [116])] := by
  have h := C8_distinct 2 (by decide) [97] [48] [49] [116] (by decide) (by decide)
  exact ⟨by decide, by decide, by decide, h.1, h.2.1, h.2.2.1, h.2.2.2⟩

/-! ## Claim C9 -/

/-- C9, counterexample: with an empty backup set, a tagged restore fails
with the `no backups found` error — not `TagNotFound` — even though no
snapshot's name contains the tag. -/
theorem C9_counterexample :
    cmd_restore 20 [97] [] true (some [116]) [48] =
      ⟨1, some .noBackups, [], false, none⟩ ∧
    RestoreErr.noBackups ≠ RestoreErr.tagNotFound := by
  constructor
  · rfl
  · decide

/-- C9 (amended): the restore tag is sanitized by exactly the
creation-time rule, and when the backup set is nonempty but no snapshot
name contains the sanitized tag as a substring, restore fails with the
`TagNotFound` error, exits non-zero, takes no pre-restore snapshot,
performs no copy, and leaves the backup directory unchanged. An empty
backup set, however, fails earlier with the `no backups found` error. -/
theorem C9_tag_not_found (maxB : Nat) (base : List Nat) (dir : List (List Nat))
    (targetExists : Bool) (t nowTs : List Nat)
    (hne : list_backups base dir ≠ [])
    (hnone : ∀ n ∈ list_backups base dir, listContains (sanitizeTagRestore t) n = false) :
    sanitizeTagRestore t = sanitizeTagSave t ∧
    cmd_restore maxB base dir targetExists (some t) nowTs =
      ⟨1, some .tagNotFound, dir, false, none⟩ := by
  refine ⟨rfl, ?_⟩
  rw [cmd_restore, if_neg hne]
  have hfind : (list_backups base dir).reverse.find?
      (fun name => listContains (sanitizeTagRestore t) name) = none := by
    apply List.find?_eq_none.mpr
    intro n hn
    rw [hnone n (List.mem_reverse.mp hn)]
    exact Bool.false_ne_true
  simp only [hfind]

/-- C9, witness: one backup `a.0` and the tag `x`, which no name contains:
restore reports `TagNotFound` and changes nothing. -/
theorem C9_witness :
    list_backups [97] [[97, 46, 48]] ≠ [] ∧
    (∀ n ∈ list_backups [97] [[97, 46, 48]],
      listContains (sanitizeTagRestore [120]) n = false) ∧
    sanitizeTagRestore [120] = sanitizeTagSave [120] ∧
    cmd_restore 20 [97] [[97, 46, 48]] true (some [120]) [49] =
      ⟨1, some .tagNotFound, [[97, 46, 48]], false, none⟩ := by
  have h := C9_tag_not_found 20 [97] [[97, 46, 48]] true [120] [49] (by decide) (by decide)
  exact ⟨by decide, by decide, h.1, h.2⟩
